import Mathlib

/-!
Language-model integration and active-chart bindings of the decoder.

A shallow embedding of

* `moses/src/LanguageModelKen.cpp` (vocabulary mapping, `CalcScore`, `Evaluate`, `LastIDs`,
  `EvaluateChart`, `KenLMState::Compare`),
* `contrib/other-builds/moses2/SCFG/ActiveChart.h` (`SymbolBindElement`, `SymbolBind`,
  `ActiveChartEntry`),
* `moses/FF/ConstrainedDecodingDeseg.cpp` (`GetConstraint`, both `EvaluateWhenApplied`),
* `moses/LM/SimpleNeuralLM.cpp` (`readConfig`),

followed by the properties proved about them.

Conventions.  `lm::WordIndex` and `std::size_t` values are natural numbers; the only
arithmetic performed on them is `+ 1` on positions bounded by the length of an in-memory
phrase, and `Order() - 1` on a model order that is at least two, so no unsigned operation
of the embedded code wraps unless a definition reduces it modulo `2 ^ 64` explicitly.  The
`int position` of `LastIDs` is an integer in the range of a 32-bit `int`, obtained from the
end position by an explicit conversion.  A method whose behaviour can be undefined (a write
past the end of a vector, a signed overflow) returns an `Option`, with `none` for that case.
Scores (`float` in the source) are kept in an arbitrary type
`S` carrying `0` and `+`; no algebraic law of `+` is assumed unless a theorem asks for one.
The n-gram model, the factor collection and the rule scorer are parameters of the embedded
methods, as are `memcmp`, `Phrase::Find` and the extraction of an `int` from a stream.  What
a statement needs of classes that live outside these files (the arena, the rule scorer with
its boundary state, the factor collection of the examples) is modelled from the
specification and marked as such.
-/

namespace Moses

/-! ## Words and the vocabulary mapping -/

/-- A decoder word, seen through the two accessors the language model uses:
`GetFactor(m_factorType)->GetId()` and `IsNonTerminal()`.  Factors are interned by the
factor collection, so pointer equality of factors is equality of their ids. -/
structure Word where
  factor : Nat
  isNonTerminal : Bool
deriving DecidableEq, Repr

/-- The state of `MappingBuilder`: the factor collection it registers strings with and the
vector `m_mapping` it fills (a reference to `m_lmIdLookup`). -/
structure MappingBuilder (FC : Type) where
  m_factorCollection : FC
  m_mapping : List Nat

/-- The call `std::vector::resize(n)` as used by `MappingBuilder::Add`: it is only reached
with `n` larger than the current size and appends value-initialised (zero) entries. -/
def vectorResize (v : List Nat) (n : Nat) : List Nat :=
  if v.length < n then v ++ List.replicate (n - v.length) 0 else v.take n

/-- The method `MappingBuilder::Add(index, str)`.  `addFactor` is
`FactorCollection::AddFactor(str)->GetId()`: it may change the collection and returns the
id under which the string is registered. -/
def MappingBuilder.Add {FC : Type} (addFactor : FC → String → FC × Nat)
    (b : MappingBuilder FC) (index : Nat) (str : String) : MappingBuilder FC :=
  let r := addFactor b.m_factorCollection str
  let factorId := r.2
  let mapping := if b.m_mapping.length ≤ factorId then vectorResize b.m_mapping (factorId + 1)
    else b.m_mapping
  { m_factorCollection := r.1, m_mapping := mapping.set factorId index }

/-- The vocabulary enumeration performed while a model is loaded: one `Add` per entry. -/
def MappingBuilder.AddAll {FC : Type} (addFactor : FC → String → FC × Nat) :
    MappingBuilder FC → List (Nat × String) → MappingBuilder FC
  | b, [] => b
  | b, (index, str) :: rest => MappingBuilder.AddAll addFactor (b.Add addFactor index str) rest

/-- The method `LanguageModelKen::TranslateID`, over the lookup vector `m_lmIdLookup`. -/
def TranslateID (m_lmIdLookup : List Nat) (word : Word) : Nat :=
  let factor := word.factor
  if factor ≥ m_lmIdLookup.length then 0 else m_lmIdLookup.getD factor 0

/-- The factor id and model index of every `Add` of a load, in call order: the id is the one
the factor collection hands out for the string at that moment. -/
def registrations {FC : Type} (addFactor : FC → String → FC × Nat) :
    FC → List (Nat × String) → List (Nat × Nat)
  | _, [] => []
  | fc, (index, str) :: rest =>
    ((addFactor fc str).2, index) :: registrations addFactor (addFactor fc str).1 rest

/-- The index of the last registration made under factor id `f`, if there is one. -/
def lastIndexFor (f : Nat) : List (Nat × Nat) → Option Nat
  | [] => none
  | (factorId, index) :: rest =>
    match lastIndexFor f rest with
    | some later => some later
    | none => if factorId = f then some index else none

/-! ## The language model and its scoring entry points -/

/-- The part of `lm::ngram::Model` that `LanguageModelKen` calls.  `Score(in, word, out)`
returns the score and the out-state; `FullScoreForgotState(rbegin, rend, word, out)` gives
`.prob` and the out-state for a context listed most recent word first; `GetState` builds a
state from such a context.  `BeginSentence` and `EndSentence` are the vocabulary ids
`GetVocabulary().BeginSentence()` and `GetVocabulary().EndSentence()`.  `Order()` is at
least two: `Evaluate` takes `&indices.front()` of a vector of `Order() - 1` entries, which
has to be non-empty, and the n-gram library loads no model below bigram order. -/
structure Model (St S : Type) where
  Order : Nat
  Order_ge_two : 2 ≤ Order
  BeginSentenceState : St
  NullContextState : St
  Score : St → Nat → S × St
  FullScoreForgotState : List Nat → Nat → S × St
  GetState : List Nat → St
  BeginSentence : Nat
  EndSentence : Nat

/-- The members of `LanguageModelKen<Model>` read by the scoring methods, together with the
two things it takes from its surroundings: `OOVFeatureEnabled()` of the base class and the
free function `TransformLMScore` of `Util.h`. -/
structure LanguageModelKen (St S : Type) where
  m_ngram : Model St S
  m_lmIdLookup : List Nat
  m_beginSentenceFactor : Nat
  OOVFeatureEnabled : Bool
  TransformLMScore : S → S

/-- The three reference parameters `fullScore`, `ngramScore`, `oovCount` of `CalcScore`. -/
structure CalcScoreOut (S : Type) where
  fullScore : S
  ngramScore : S
  oovCount : Nat
deriving DecidableEq, Repr

/-- The `for` loop of `CalcScore` over the words from `position` on.  `state0` is the content
of `*state0`; `*state1` is only ever written by `Score` right before the swap turns it into
`*state0`, so its previous content is never read. -/
def CalcScoreLoop {St S : Type} [Add S] (lm : LanguageModelKen St S) (ngramBoundary : Nat) :
    List Word → Nat → St → CalcScoreOut S → CalcScoreOut S
  | [], _, _, acc => acc
  | word :: rest, position, state0, acc =>
    if word.isNonTerminal then
      CalcScoreLoop lm ngramBoundary rest (position + 1) lm.m_ngram.NullContextState acc
    else
      let index := TranslateID lm.m_lmIdLookup word
      let r := lm.m_ngram.Score state0 index
      let score := lm.TransformLMScore r.1
      CalcScoreLoop lm ngramBoundary rest (position + 1) r.2
        { fullScore := acc.fullScore + score
          ngramScore := if position ≥ ngramBoundary then acc.ngramScore + score
            else acc.ngramScore
          oovCount := if index = 0 then acc.oovCount + 1 else acc.oovCount }

/-- The method `LanguageModelKen::CalcScore`.  `prior` holds what the three reference
parameters contained before the call; the result is what they contain after it. -/
def CalcScore {St S : Type} [Zero S] [Add S] (lm : LanguageModelKen St S) (phrase : List Word)
    (prior : CalcScoreOut S) : CalcScoreOut S :=
  let cleared : CalcScoreOut S := { prior with fullScore := 0, ngramScore := 0, oovCount := 0 }
  match phrase with
  | [] => cleared
  | word0 :: rest =>
    let ngramBoundary := lm.m_ngram.Order - 1
    if lm.m_beginSentenceFactor = word0.factor then
      CalcScoreLoop lm ngramBoundary rest 1 lm.m_ngram.BeginSentenceState cleared
    else
      CalcScoreLoop lm ngramBoundary (word0 :: rest) 0 lm.m_ngram.NullContextState cleared

/-- A phrase-based hypothesis, seen through the accessors `Evaluate` and `LastIDs` use:
`GetCurrTargetLength()`, the start and end position of `GetCurrTargetWordsRange()`,
`GetWord(position)` over the whole target side built so far, and `IsSourceCompleted()`. -/
structure Hypothesis where
  currTargetLength : Nat
  startPos : Nat
  endPos : Nat
  word : Nat → Word
  isSourceCompleted : Bool

/-- The scores a `ScoreComponentCollection` holds for this producer: the language-model
score and, when the OOV feature is enabled, the second component. -/
structure ScoreAccum (S : Type) where
  lm : S
  oov : S
deriving DecidableEq, Repr

/-- The conversion of a `std::size_t` to `int` in `int position = ...GetEndPos()`: the value
modulo `2 ^ 32`, read as a two's-complement number. -/
def intOfSizeT (n : Nat) : Int :=
  if n % 4294967296 < 2147483648 then ((n % 4294967296 : Nat) : Int)
  else ((n % 4294967296 : Nat) : Int) - 4294967296

/-- The conversion of the `int position` to the `size_t` parameter of `GetWord`: the value
modulo `2 ^ 64`. -/
def sizeTOfInt (i : Int) : Nat :=
  (i % 18446744073709551616).toNat

/-- The loop of `LastIDs`.  The first argument is `end - index`, the number of slots between
`index` and `end`; the second is `position`.  The result lists the identifiers the loop
writes from `*index` on, in order, so that the returned pointer is `index` plus the length
of the list.  As in the source, `position == -1` is tested before `index == end`.  The result
is `none` when `--position` is reached with `position` at `INT_MIN`, a signed overflow whose
behaviour is undefined. -/
def LastIDsLoop {St S : Type} (lm : LanguageModelKen St S) (hypo : Hypothesis) :
    Nat → Int → Option (List Nat)
  | 0, position => if position = -1 then some [lm.m_ngram.BeginSentence] else some []
  | slots + 1, position =>
    if position = -1 then some [lm.m_ngram.BeginSentence]
    else if position = -2147483648 then none
    else (LastIDsLoop lm hypo slots (position - 1)).map
      (fun written => TranslateID lm.m_lmIdLookup (hypo.word (sizeTOfInt position)) :: written)

/-- The method `LanguageModelKen::LastIDs`, called with `indices` such that
`end = indices + Order() - 1`: the identifiers written from `indices[0]` on, in order.  The
list can be longer than the `Order() - 1` slots in front of `end`. -/
def LastIDs {St S : Type} (lm : LanguageModelKen St S) (hypo : Hypothesis) :
    Option (List Nat) :=
  LastIDsLoop lm hypo (lm.m_ngram.Order - 1) (intOfSizeT hypo.endPos)

/-- The two lines `std::vector<lm::WordIndex> indices(m_ngram->Order() - 1);` and
`last = LastIDs(hypo, &indices.front());` of `Evaluate`: the content of the range
`[&indices.front(), last)`.  The result is `none` when the behaviour is undefined, that is
when `LastIDs` overflows `position` or writes past the last entry of the vector. -/
def indicesRange {St S : Type} (lm : LanguageModelKen St S) (hypo : Hypothesis) :
    Option (List Nat) :=
  match LastIDs lm hypo with
  | some written => if written.length ≤ lm.m_ngram.Order - 1 then some written else none
  | none => none

/-- The variables of the scoring loop of `Evaluate`: the running `score`, the contents of
`ret->state` and `aux_state`, and whether `state0` currently points to `ret->state`. -/
structure EvalVars (St S : Type) where
  score : S
  ret : St
  aux : St
  state0IsRet : Bool

/-- The `for` loop of `Evaluate`; the first argument counts the iterations left
(`adjust_end - position`). -/
def EvaluateLoop {St S : Type} [Add S] (lm : LanguageModelKen St S) (hypo : Hypothesis) :
    Nat → Nat → EvalVars St S → EvalVars St S
  | 0, _, v => v
  | n + 1, position, v =>
    let index := TranslateID lm.m_lmIdLookup (hypo.word position)
    if v.state0IsRet then
      let r := lm.m_ngram.Score v.ret index
      EvaluateLoop lm hypo n (position + 1)
        { score := v.score + r.1, ret := v.ret, aux := r.2, state0IsRet := false }
    else
      let r := lm.m_ngram.Score v.aux index
      EvaluateLoop lm hypo n (position + 1)
        { score := v.score + r.1, ret := r.2, aux := v.aux, state0IsRet := true }

/-- The variables of `Evaluate` when it reaches `score = TransformLMScore(score)`: the raw
score and `ret->state`; `none` when the behaviour up to there is undefined. -/
def EvaluateRaw {St S : Type} [Add S] (lm : LanguageModelKen St S) (hypo : Hypothesis)
    (in_state aux_state : St) : Option (S × St) :=
  let begin := hypo.startPos
  let endP := hypo.endPos + 1
  let adjust_end := min endP (begin + lm.m_ngram.Order - 1)
  let first := lm.m_ngram.Score in_state (TranslateID lm.m_lmIdLookup (hypo.word begin))
  let v := EvaluateLoop lm hypo (adjust_end - (begin + 1)) (begin + 1)
    { score := first.1, ret := first.2, aux := aux_state, state0IsRet := true }
  if hypo.isSourceCompleted then
    (indicesRange lm hypo).map (fun indices =>
      let r := lm.m_ngram.FullScoreForgotState indices lm.m_ngram.EndSentence
      (v.score + r.1, r.2))
  else if adjust_end < endP then
    (indicesRange lm hypo).map (fun indices => (v.score, lm.m_ngram.GetState indices))
  else if !v.state0IsRet then
    some (v.score, v.aux)
  else
    some (v.score, v.ret)

/-- The two `PlusEquals` calls that end `Evaluate`. -/
def PlusEqualsScore {S : Type} [Zero S] [Add S] (oovFeatureEnabled : Bool) (out : ScoreAccum S)
    (score : S) : ScoreAccum S :=
  if oovFeatureEnabled then { lm := out.lm + score, oov := out.oov + 0 }
  else { lm := out.lm + score, oov := out.oov }

/-- The method `LanguageModelKen::Evaluate`: the returned state and the accumulator after
the call, `none` when the behaviour of the call is undefined.  `aux_state` is the
indeterminate initial content of the local of that name. -/
def Evaluate {St S : Type} [Zero S] [Add S] (lm : LanguageModelKen St S) (hypo : Hypothesis)
    (ps aux_state : St) (out : ScoreAccum S) : Option (St × ScoreAccum S) :=
  if hypo.currTargetLength = 0 then some (ps, out)
  else
    (EvaluateRaw lm hypo ps aux_state).map (fun r =>
      (r.2, PlusEqualsScore lm.OOVFeatureEnabled out (lm.TransformLMScore r.1)))

/-- The raw score `Evaluate` collects for the words the hypothesis adds (the value of `score`
after the `for` loop); zero when it adds none. -/
def wordsScore {St S : Type} [Zero S] [Add S] (lm : LanguageModelKen St S) (hypo : Hypothesis)
    (ps aux_state : St) : S :=
  if hypo.currTargetLength = 0 then 0
  else
    let begin := hypo.startPos
    let adjust_end := min (hypo.endPos + 1) (begin + lm.m_ngram.Order - 1)
    let first := lm.m_ngram.Score ps (TranslateID lm.m_lmIdLookup (hypo.word begin))
    (EvaluateLoop lm hypo (adjust_end - (begin + 1)) (begin + 1)
      { score := first.1, ret := first.2, aux := aux_state, state0IsRet := true }).score

/-- The `count` most recent entries of the sequence `<s> w_0 ... w_(size - 1)` formed by the
sentence-begin identifier and the identifiers of the first `size` words of the target side,
most recent entry first. -/
def recentIds {St S : Type} (lm : LanguageModelKen St S) (hypo : Hypothesis) :
    Nat → Nat → List Nat
  | 0, _ => []
  | _ + 1, 0 => [lm.m_ngram.BeginSentence]
  | count + 1, size + 1 =>
    TranslateID lm.m_lmIdLookup (hypo.word size) :: recentIds lm hypo count size

/-- The context of the last words of a hypothesis, most recent word first, as a model of
order `n` looks at it: the `n - 1` most recent entries of the target side built so far with
the sentence-begin marker in front of it. -/
def lastWordsContext {St S : Type} (lm : LanguageModelKen St S) (hypo : Hypothesis) :
    List Nat :=
  recentIds lm hypo (lm.m_ngram.Order - 1) (hypo.endPos + 1)

/-- The end-of-sentence score of a hypothesis: the model's score of the `EndSentence` word
against the context of the last words of the hypothesis. -/
def endOfSentenceScore {St S : Type} (lm : LanguageModelKen St S) (hypo : Hypothesis) : S :=
  (lm.m_ngram.FullScoreForgotState (lastWordsContext lm hypo) lm.m_ngram.EndSentence).1

/-- The words of a phrase that `CalcScore` is said to score: every word that is not a
non-terminal, leaving out a sentence-begin marker at position 0. -/
def scoredWords (beginSentenceFactor : Nat) : List Word → List Word
  | [] => []
  | word0 :: rest =>
    if beginSentenceFactor = word0.factor then rest.filter (fun w => !w.isNonTerminal)
    else (word0 :: rest).filter (fun w => !w.isNonTerminal)

/-! ## Chart (hypergraph) scoring -/

/-- The operations of `lm::ngram::RuleScore<Model>` called by `EvaluateChart`, over the
type `R` of the values a rule scorer goes through and the type `C` of chart states.
`start` is the freshly constructed scorer; `Finish` returns the score and leaves the chart
state of the rule in the state object the scorer was constructed on. -/
structure RuleScore (R C S : Type) where
  start : R
  BeginSentence : R → R
  BeginNonTerminal : R → C → S → R
  NonTerminal : R → C → S → R
  Terminal : R → Nat → R
  Finish : R → S × C

/-- A chart hypothesis, seen through the accessors `EvaluateChart` uses: the words of
`GetCurrTargetPhrase()`, the map `GetAlignmentInfo().GetNonTermIndexMap()`, and for every
index `i` the chart state `GetPrevHypo(i)->GetFFState(featureID)` with the score
`GetPrevHypo(i)->GetScoreBreakdown().GetScoresForProducer(this)[0]`. -/
structure ChartHypothesis (C S : Type) where
  targetPhrase : List Word
  nonTermIndexMap : Nat → Nat
  prevHypo : Nat → C × S

/-- The `for` loop of `EvaluateChart` over the words from `phrasePos` on. -/
def EvaluateChartLoop {St S R C : Type} (lm : LanguageModelKen St S) (ruleScore : RuleScore R C S)
    (hypo : ChartHypothesis C S) : List Word → Nat → R → R
  | [], _, r => r
  | word :: rest, phrasePos, r =>
    if word.isNonTerminal then
      let prev := hypo.prevHypo (hypo.nonTermIndexMap phrasePos)
      EvaluateChartLoop lm ruleScore hypo rest (phrasePos + 1)
        (ruleScore.NonTerminal r prev.1 prev.2)
    else
      EvaluateChartLoop lm ruleScore hypo rest (phrasePos + 1)
        (ruleScore.Terminal r (TranslateID lm.m_lmIdLookup word))

/-- The rule scorer of `EvaluateChart` when it reaches `ruleScore.Finish()`. -/
def EvaluateChartRun {St S R C : Type} (lm : LanguageModelKen St S) (ruleScore : RuleScore R C S)
    (hypo : ChartHypothesis C S) : R :=
  match hypo.targetPhrase with
  | [] => ruleScore.start
  | word :: rest =>
    if word.factor = lm.m_beginSentenceFactor then
      EvaluateChartLoop lm ruleScore hypo rest 1 (ruleScore.BeginSentence ruleScore.start)
    else if word.isNonTerminal then
      let prev := hypo.prevHypo (hypo.nonTermIndexMap 0)
      EvaluateChartLoop lm ruleScore hypo rest 1
        (ruleScore.BeginNonTerminal ruleScore.start prev.1 prev.2)
    else
      EvaluateChartLoop lm ruleScore hypo (word :: rest) 0 ruleScore.start

/-- The method `LanguageModelKen::EvaluateChart`: the new chart state and the accumulator
after `accumulator->Assign(this, ruleScore.Finish())`. -/
def EvaluateChart {St S R C : Type} (lm : LanguageModelKen St S) (ruleScore : RuleScore R C S)
    (hypo : ChartHypothesis C S) (accumulator : ScoreAccum S) : C × ScoreAccum S :=
  let fin := ruleScore.Finish (EvaluateChartRun lm ruleScore hypo)
  (fin.2, { accumulator with lm := fin.1 })

/-- One call on a rule scorer. -/
inductive RuleStep (C S : Type) where
  | BeginSentence : RuleStep C S
  | BeginNonTerminal : C → S → RuleStep C S
  | NonTerminal : C → S → RuleStep C S
  | Terminal : Nat → RuleStep C S
deriving DecidableEq, Repr

/-- Performing one call. -/
def RuleStep.perform {R C S : Type} (ruleScore : RuleScore R C S) (r : R) : RuleStep C S → R
  | .BeginSentence => ruleScore.BeginSentence r
  | .BeginNonTerminal c s => ruleScore.BeginNonTerminal r c s
  | .NonTerminal c s => ruleScore.NonTerminal r c s
  | .Terminal id => ruleScore.Terminal r id

/-- The rule-scoring step that the symbol `word` at position `p` of a rule is said to
become: `BeginSentence` for a sentence-begin marker at position 0, a splice of the
dominated hypothesis selected by `nonTermIndexMap[p]` for a non-terminal, and
`Terminal(TranslateID(word))` for every other symbol. -/
def stepOfSymbol {St S C : Type} (lm : LanguageModelKen St S) (hypo : ChartHypothesis C S)
    (p : Nat) (word : Word) : RuleStep C S :=
  if p = 0 ∧ word.factor = lm.m_beginSentenceFactor then .BeginSentence
  else if word.isNonTerminal then
    let prev := hypo.prevHypo (hypo.nonTermIndexMap p)
    if p = 0 then .BeginNonTerminal prev.1 prev.2 else .NonTerminal prev.1 prev.2
  else .Terminal (TranslateID lm.m_lmIdLookup word)

/-- The steps of the symbols of `words`, which sit at positions `p`, `p + 1`, ... -/
def stepsFrom {St S C : Type} (lm : LanguageModelKen St S) (hypo : ChartHypothesis C S) :
    Nat → List Word → List (RuleStep C S)
  | _, [] => []
  | p, word :: rest => stepOfSymbol lm hypo p word :: stepsFrom lm hypo (p + 1) rest

/-- Modelled from the spec: the boundary state `lm::ngram::ChartState`, whose class
(`lm/left.hh`) is not part of the sources at hand.  It is the pair of the left-context words
that do not have their full `order - 1` words of left context yet (`left`, in sentence
order, closed for additions once `full`) and the right context: the last words of the
derivation, most recent first, at most `order - 1` of them. -/
structure ChartState where
  left : List Nat
  full : Bool
  right : List Nat
deriving DecidableEq, Repr

/-- Modelled from the spec: the variables of a `lm::ngram::RuleScore` in progress, the score
collected so far and the boundary state under construction. -/
structure RuleScoreVars (S : Type) where
  prob : S
  state : ChartState

/-- Modelled from the spec: the score correction for the left-context words of a spliced
boundary state.  Each such word was scored inside its own rule against the words before it
there (`seen`, most recent first); it now gets the score it has against the running context
`right` as well, and the score it carried is taken back. -/
def spliceLeft {St S : Type} [Add S] [Sub S] (m : Model St S) (right : List Nat) :
    List Nat → List Nat → S → S
  | _, [], prob => prob
  | seen, word :: rest, prob =>
    spliceLeft m right (word :: seen) rest
      (prob + ((m.FullScoreForgotState ((seen ++ right).take (m.Order - 1)) word).1
        - (m.FullScoreForgotState seen word).1))

/-- Modelled from the spec: `lm::ngram::RuleScore<Model>` (`lm/left.hh`), which is not part
of the sources at hand.  `BeginSentence` initialises scoring with the begin-of-sentence
context; `Terminal` scores the word against the running context as linear mode does and
keeps it among the left-context words while fewer than `order - 1` words precede it;
`NonTerminal` splices in the boundary state of a dominated sub-derivation together with its
known score, touching only its left-context words; `Finish` returns the score and the
boundary state. -/
def specRuleScore {St S : Type} [Zero S] [Add S] [Sub S] (m : Model St S) :
    RuleScore (RuleScoreVars S) ChartState S where
  start := { prob := 0, state := { left := [], full := false, right := [] } }
  BeginSentence := fun r =>
    { prob := r.prob, state := { left := r.state.left, full := true, right := [m.BeginSentence] } }
  BeginNonTerminal := fun _ c s => { prob := s, state := c }
  NonTerminal := fun r c s =>
    let left := if r.state.full then r.state.left
      else (r.state.left ++ c.left).take (m.Order - 1)
    { prob := spliceLeft m r.state.right [] c.left (r.prob + s)
      state :=
        { left := left
          full := r.state.full || c.full || decide (m.Order - 1 ≤ left.length)
          right := if c.full then c.right else (c.right ++ r.state.right).take (m.Order - 1) } }
  Terminal := fun r word =>
    let left := if r.state.full then r.state.left
      else (r.state.left ++ [word]).take (m.Order - 1)
    { prob := r.prob + (m.FullScoreForgotState r.state.right word).1
      state :=
        { left := left
          full := r.state.full || decide (m.Order - 1 ≤ left.length)
          right := (word :: r.state.right).take (m.Order - 1) } }
  Finish := fun r => (r.prob, r.state)

/-! ## Derivations and the raw linear total -/

/-- The raw linear-mode total of `words` scored one after another after the context
`context` (most recent first), each against the last `order - 1` words before it. -/
def linearRaw {St S : Type} [Zero S] [Add S] (m : Model St S) : List Nat → List Nat → S
  | _, [] => 0
  | context, word :: rest =>
    (m.FullScoreForgotState (context.take (m.Order - 1)) word).1
      + linearRaw m (word :: context) rest

/-- The rule scorer variables that sum up the word sequence `words`, scored after the
begin-of-sentence context when `anchored` and after the empty context otherwise. -/
def summary {St S : Type} [Zero S] [Add S] (m : Model St S) (anchored : Bool)
    (words : List Nat) : RuleScoreVars S :=
  { prob := linearRaw m (if anchored then [m.BeginSentence] else []) words
    state :=
      { left := if anchored then [] else words.take (m.Order - 1)
        full := anchored || decide (m.Order - 1 ≤ words.length)
        right := (words.reverse ++ (if anchored then [m.BeginSentence] else [])).take
          (m.Order - 1) } }

/-- A derivation: the symbols of the target side of a rule from left to right, each a
terminal word or a non-terminal (its label word) filled by a sub-derivation. -/
inductive Derivation where
  | done : Derivation
  | terminal (word : Word) (rest : Derivation) : Derivation
  | nonTerminal (label : Word) (child : Derivation) (rest : Derivation) : Derivation

/-- The target phrase of the top rule of a derivation. -/
def Derivation.targetPhrase : Derivation → List Word
  | .done => []
  | .terminal word rest => word :: rest.targetPhrase
  | .nonTerminal label _ rest => label :: rest.targetPhrase

/-- The derivation flattened into one target word sequence. -/
def Derivation.flatten : Derivation → List Word
  | .done => []
  | .terminal word rest => word :: rest.flatten
  | .nonTerminal _ child rest => child.flatten ++ rest.flatten

/-- The chart state and score `EvaluateChart` produces for a rule with target phrase
`phrase` whose dominated hypotheses have, by phrase position, the chart states and scores
`results`. -/
def evaluateRule {St S R C : Type} [Zero S] (lm : LanguageModelKen St S)
    (ruleScore : RuleScore R C S) (unused : C × S) (phrase : List Word)
    (results : List (C × S)) : C × S :=
  let out := EvaluateChart lm ruleScore
    { targetPhrase := phrase, nonTermIndexMap := fun p => p
      prevHypo := fun i => results.getD i unused }
    { lm := 0, oov := 0 }
  (out.1, out.2.lm)

/-- The results of the dominated hypotheses of the top rule, by phrase position, each
obtained by `EvaluateChart` on the sub-derivation (bottom-up, as the chart is filled). -/
def Derivation.results {St S R C : Type} [Zero S] (lm : LanguageModelKen St S)
    (ruleScore : RuleScore R C S) (unused : C × S) : Derivation → List (C × S)
  | .done => []
  | .terminal _ rest => unused :: rest.results lm ruleScore unused
  | .nonTerminal _ child rest =>
    evaluateRule lm ruleScore unused child.targetPhrase (child.results lm ruleScore unused)
      :: rest.results lm ruleScore unused

/-- The chart state and total score of a derivation. -/
def Derivation.evaluate {St S R C : Type} [Zero S] (lm : LanguageModelKen St S)
    (ruleScore : RuleScore R C S) (unused : C × S) (d : Derivation) : C × S :=
  evaluateRule lm ruleScore unused d.targetPhrase (d.results lm ruleScore unused)

/-- The first symbol of the rule does not carry the sentence-begin factor. -/
def Derivation.headNotBegin (bos : Nat) : Derivation → Bool
  | .done => true
  | .terminal word _ => word.factor != bos
  | .nonTerminal label _ _ => label.factor != bos

/-- Terminals are words that are not non-terminals, labels are non-terminals, and no
symbol carries the sentence-begin factor. -/
def Derivation.wellFormed (bos : Nat) : Derivation → Bool
  | .done => true
  | .terminal word rest =>
    !word.isNonTerminal && word.factor != bos && rest.wellFormed bos
  | .nonTerminal label child rest =>
    label.isNonTerminal && label.factor != bos && child.wellFormed bos
      && rest.wellFormed bos

/-- A well-formed derivation, or one whose top rule starts with the sentence-begin marker
and is well-formed from there on. -/
def Derivation.sentenceWellFormed (bos : Nat) : Derivation → Bool
  | .terminal word rest =>
    !word.isNonTerminal && rest.wellFormed bos
  | d => d.wellFormed bos

/-- The words of the context that a model state stands for: the states `Score` hands on
score a word as `FullScoreForgotState` scores it against those words, and hold the last
`order - 1` words. -/
def Model.Coherent {St S : Type} (m : Model St S) (contextOf : St → List Nat) : Prop :=
  contextOf m.NullContextState = []
  ∧ contextOf m.BeginSentenceState = [m.BeginSentence]
  ∧ ∀ (st : St) (word : Nat),
      (m.Score st word).1 = (m.FullScoreForgotState (contextOf st) word).1
      ∧ contextOf (m.Score st word).2 = (word :: contextOf st).take (m.Order - 1)

/-- The model identifiers of the flattened derivation. -/
def Derivation.ids (lookup : List Nat) (d : Derivation) : List Nat :=
  d.flatten.map (TranslateID lookup)

/-! ## Active chart: symbol bindings and chart entries -/

/-- The class `SymbolBindElement`: three pointers, kept as addresses. -/
structure SymbolBindElement where
  range : Nat
  word : Nat
  hypos : Nat
deriving DecidableEq, Repr

/-- The operator `SymbolBindElement::operator==`. -/
def SymbolBindElement.eq (self compare : SymbolBindElement) : Bool :=
  let ret := self.range == compare.range && self.word == compare.word
  ret

/-- Equality of two `Vector<SymbolBindElement>` (the `operator==` of `std::vector`): equal
sizes and element-wise `operator==`. -/
def vectorEq (a b : List SymbolBindElement) : Bool :=
  a.length == b.length && (List.zip a b).all (fun p => p.1.eq p.2)

/-- The class `SymbolBind`. -/
structure SymbolBind where
  coll : List SymbolBindElement
  numNT : Nat
deriving DecidableEq, Repr

/-- The constructor `SymbolBind(MemPool &pool)`. -/
def SymbolBind.create : SymbolBind :=
  { coll := [], numNT := 0 }

/-- The constructor `SymbolBind(MemPool &pool, const SymbolBind &copy)`. -/
def SymbolBind.createCopy (copy : SymbolBind) : SymbolBind :=
  { coll := copy.coll, numNT := copy.numNT }

/-- The operator `SymbolBind::operator==`. -/
def SymbolBind.eq (self compare : SymbolBind) : Bool :=
  vectorEq self.coll compare.coll

/-- The part of an element that its `operator==` looks at: the pair (range, word). -/
def SymbolBindElement.key (e : SymbolBindElement) : Nat × Nat :=
  (e.range, e.word)

/-- Modelled from the spec: the arena `MemPool`, whose class is not part of the sources at
hand.  Entries and their bindings are allocated from a per-sentence arena and none is freed
individually, so the arena is the growing sequence of the `SymbolBind` objects placed in
it, and the address of an object is its index. -/
structure MemPool where
  objects : List SymbolBind
deriving DecidableEq, Repr

/-- The object stored at address `p`, if `p` is an address handed out by the arena. -/
def MemPool.deref (pool : MemPool) (p : Nat) : Option SymbolBind :=
  pool.objects[p]?

/-- Placement of a new object into the memory returned by `pool.Allocate<SymbolBind>()`:
the arena after the allocation and the address of the object. -/
def MemPool.place (pool : MemPool) (obj : SymbolBind) : MemPool × Nat :=
  ({ objects := pool.objects ++ [obj] }, pool.objects.length)

/-- The class `ActiveChartEntry`: the pointer `symbolBinds`. -/
structure ActiveChartEntry where
  symbolBinds : Nat
deriving DecidableEq, Repr

/-- The constructor `ActiveChartEntry(MemPool &pool)`. -/
def ActiveChartEntry.create (pool : MemPool) : MemPool × ActiveChartEntry :=
  let r := pool.place SymbolBind.create
  (r.1, { symbolBinds := r.2 })

/-- The constructor `ActiveChartEntry(MemPool &pool, const ActiveChartEntry &prevEntry)`;
`none` when `prevEntry.symbolBinds` does not point into the arena. -/
def ActiveChartEntry.createFrom (pool : MemPool) (prevEntry : ActiveChartEntry) :
    Option (MemPool × ActiveChartEntry) :=
  match pool.deref prevEntry.symbolBinds with
  | none => none
  | some prevBinds =>
    let r := pool.place (SymbolBind.createCopy prevBinds)
    some (r.1, { symbolBinds := r.2 })

/-! ## Language-model states and their comparison -/

/-- The part of `lm::ngram::State` that `KenLMState::Compare` reads: the array `words`
(`words i` is entry `i`; an `lm::WordIndex` is a 32-bit unsigned integer) and `length`. -/
structure State where
  words : Nat → Nat
  length : Nat

/-- The struct `KenLMState`. -/
structure KenLMState where
  state : State

/-- The four bytes of a `lm::WordIndex` in memory, lowest address first; `bigEndian` tells
the byte order of the machine. -/
def wordBytes (bigEndian : Bool) (w : Nat) : List Nat :=
  if bigEndian then [w / 16777216 % 256, w / 65536 % 256, w / 256 % 256, w % 256]
  else [w % 256, w / 256 % 256, w / 65536 % 256, w / 16777216 % 256]

/-- The bytes of the entries `i`, `i + 1`, ..., `i + n - 1` of an array of `lm::WordIndex`:
with `i = 0` the `sizeof(lm::WordIndex) * n` bytes that `memcmp` is given. -/
def bytesFrom (bigEndian : Bool) (words : Nat → Nat) : Nat → Nat → List Nat
  | _, 0 => []
  | i, n + 1 => wordBytes bigEndian (words i) ++ bytesFrom bigEndian words (i + 1) n

/-- The value that the C standard fixes for `memcmp` up to its magnitude: the difference of
the first pair of bytes that differ, and zero when there is none. -/
def memcmpReference : List Nat → List Nat → Int
  | x :: xs, y :: ys => if x = y then memcmpReference xs ys else (x : Int) - (y : Int)
  | _, _ => 0

/-- The method `KenLMState::Compare`.  `memcmp` is the library function, applied to the
first `sizeof(lm::WordIndex) * state.length` bytes of the two `words` arrays. -/
def KenLMState.Compare (memcmp : List Nat → List Nat → Int) (bigEndian : Bool)
    (self o : KenLMState) : Int :=
  let other := o
  if self.state.length < other.state.length then -1
  else if self.state.length > other.state.length then 1
  else memcmp (bytesFrom bigEndian self.state.words 0 self.state.length)
    (bytesFrom bigEndian other.state.words 0 self.state.length)

/-! ## Constrained decoding against reference translations -/

/-- A phrase, as the list of its words; `GetSize()` is its length. -/
abbrev Phrase := List Word

/-- The constant `NOT_FOUND`, the largest `size_t`. -/
def NOT_FOUND : Nat := 18446744073709551615

/-- The exception raised by `UTIL_THROW(util::Exception, "Couldn't find reference " << id)`:
the text and the identifier streamed after it. -/
structure UtilException where
  text : String
  id : Int
deriving DecidableEq, Repr

/-- The function template `GetConstraint<H, M>`.  The map `constraints` gives the entry
stored under a key, if there is one; `translationId` is the chain
`hypo.GetManager().GetSource().GetTranslationId()`. -/
def GetConstraint {H : Type} (translationId : H → Int)
    (constraints : Int → Option (List Phrase)) (hypo : H) :
    Except UtilException (List Phrase) :=
  let id := translationId hypo
  match constraints id with
  | none => .error { text := "Couldn't find reference ", id := id }
  | some second => .ok second

/-- The members of `ConstrainedDecodingDeseg` read when the feature is applied. -/
structure ConstrainedDecodingDeseg where
  m_constraints : Int → Option (List Phrase)
  m_maxUnknowns : Int
  m_negate : Bool
  m_soft : Bool

/-- A phrase-based hypothesis, seen through the accessors the feature uses: the translation
id of the source of its manager, `GetOutputPhrase` and `IsSourceCompleted()`. -/
structure DesegHypothesis where
  translationId : Int
  outputPhrase : Phrase
  isSourceCompleted : Bool

/-- A chart hypothesis, seen through the accessors the feature uses: the translation id of
the source of its manager, `GetOutputPhrase`, the start and end position of
`GetCurrSourceRange()`, and `GetSize()` of the source sentence. -/
structure DesegChartHypothesis where
  translationId : Int
  outputPhrase : Phrase
  currSourceStartPos : Nat
  currSourceEndPos : Nat
  sourceSize : Nat

/-- The `while` loop of both `EvaluateWhenApplied` overloads over the references from index
`i` on; the pair is (`searchPos`, `size`).  `find ref sought maxUnknown` is
`ref.Find(sought, maxUnknown)`. -/
def searchLoop (find : Phrase → Phrase → Int → Nat) (outputPhrase : Phrase)
    (m_maxUnknowns : Int) : List Phrase → Nat × Nat → Nat × Nat
  | [], r => r
  | ref :: rest, (searchPos, size) =>
    if searchPos = NOT_FOUND then
      searchLoop find outputPhrase m_maxUnknowns rest
        (find ref outputPhrase m_maxUnknowns, ref.length)
    else (searchPos, size)

/-- The overload `ConstrainedDecodingDeseg::EvaluateWhenApplied(const Hypothesis&, ...)`: the
outcome (the phrase of the returned state, or the exception) and the accumulator after the
call.  `infinity` is `std::numeric_limits<float>::infinity()`. -/
def EvaluateWhenApplied {S : Type} [Zero S] [One S] [Neg S] [Add S]
    (find : Phrase → Phrase → Int → Nat) (infinity : S) (ff : ConstrainedDecodingDeseg)
    (hypo : DesegHypothesis) (accumulator : S) : Except UtilException Phrase × S :=
  match GetConstraint (fun h : DesegHypothesis => h.translationId) ff.m_constraints hypo with
  | .error e => (.error e, accumulator)
  | .ok ref =>
    let outputPhrase := hypo.outputPhrase
    let r := searchLoop find outputPhrase ff.m_maxUnknowns ref (NOT_FOUND, 0)
    let searchPos := r.1
    let size := r.2
    let score : S :=
      if hypo.isSourceCompleted then
        let isMatch := decide (searchPos = 0) && decide (size = outputPhrase.length)
        if !ff.m_negate then
          if isMatch then 0 else -(if ff.m_soft then 1 else infinity)
        else
          if !isMatch then 0 else -(if ff.m_soft then 1 else infinity)
      else if ff.m_negate then 0
      else
        if searchPos ≠ NOT_FOUND then 0 else -(if ff.m_soft then 1 else infinity)
    (.ok outputPhrase, accumulator + score)

/-- The overload `ConstrainedDecodingDeseg::EvaluateWhenApplied(const ChartHypothesis&, ...)`.
The subtraction `source.GetSize() - 1` is one of `size_t`. -/
def EvaluateWhenAppliedChart {S : Type} [Zero S] [One S] [Neg S] [Add S]
    (find : Phrase → Phrase → Int → Nat) (infinity : S) (ff : ConstrainedDecodingDeseg)
    (hypo : DesegChartHypothesis) (accumulator : S) : Except UtilException Phrase × S :=
  match GetConstraint (fun h : DesegChartHypothesis => h.translationId) ff.m_constraints
      hypo with
  | .error e => (.error e, accumulator)
  | .ok ref =>
    let outputPhrase := hypo.outputPhrase
    let r := searchLoop find outputPhrase ff.m_maxUnknowns ref (NOT_FOUND, 0)
    let searchPos := r.1
    let size := r.2
    let score : S :=
      if hypo.currSourceStartPos = 0
          ∧ hypo.currSourceEndPos
            = (hypo.sourceSize + 18446744073709551615) % 18446744073709551616 then
        let isMatch := decide (searchPos = 0) && decide (size = outputPhrase.length)
        if !ff.m_negate then
          if isMatch then 0 else -(if ff.m_soft then 1 else infinity)
        else
          if !isMatch then 0 else -(if ff.m_soft then 1 else infinity)
      else if ff.m_negate then 0
      else
        if searchPos ≠ NOT_FOUND then 0 else -(if ff.m_soft then 1 else infinity)
    (.ok outputPhrase, accumulator + score)

/-- The first reference that contains the output phrase, the one at which the search
stops. -/
def firstContaining (find : Phrase → Phrase → Int → Nat) (outputPhrase : Phrase)
    (m_maxUnknowns : Int) (refs : List Phrase) : Option Phrase :=
  refs.find? (fun ref => decide (find ref outputPhrase m_maxUnknowns ≠ NOT_FOUND))

/-- Some reference contains the output phrase. -/
def isFound (find : Phrase → Phrase → Int → Nat) (outputPhrase : Phrase) (m_maxUnknowns : Int)
    (refs : List Phrase) : Bool :=
  (firstContaining find outputPhrase m_maxUnknowns refs).isSome

/-- The output phrase was found at position 0 of a reference of the same size as the
output phrase, the reference being the one at which the search stops. -/
def isExactMatch (find : Phrase → Phrase → Int → Nat) (outputPhrase : Phrase)
    (m_maxUnknowns : Int) (refs : List Phrase) : Bool :=
  match firstContaining find outputPhrase m_maxUnknowns refs with
  | some ref =>
    decide (find ref outputPhrase m_maxUnknowns = 0) && decide (ref.length = outputPhrase.length)
  | none => false

/-- The penalty: `-1` when `soft` is set and minus infinity otherwise. -/
def penalty {S : Type} [One S] [Neg S] (infinity : S) (soft : Bool) : S :=
  if soft then -1 else -infinity

/-- The scoring table: for a hypothesis covering the whole source the score is `0` if
(match and not negate) or (not match and negate), else the penalty; for a partial
hypothesis it is `0` if negate or found, else the penalty. -/
def tableScore {S : Type} [Zero S] [One S] [Neg S] (infinity : S)
    (completed found isMatch negate soft : Bool) : S :=
  if completed then
    if (isMatch && !negate) || (!isMatch && negate) then 0 else penalty infinity soft
  else
    if negate || found then 0 else penalty infinity soft

/-- The test of the chart overload for a hypothesis that covers the whole source. -/
def chartCompleted (hypo : DesegChartHypothesis) : Bool :=
  decide (hypo.currSourceStartPos = 0
    ∧ hypo.currSourceEndPos
      = (hypo.sourceSize + 18446744073709551615) % 18446744073709551616)

/-! ## Configuration section of the neural language model -/

/-- The enumeration `activation_function_type`. -/
inductive activation_function_type where
  | Tanh : activation_function_type
  | HardTanh : activation_function_type
  | Rectifier : activation_function_type
  | Identity : activation_function_type
  | InvalidFunction : activation_function_type
deriving DecidableEq, Repr

/-- The configuration members of `SimpleNeuralLM` that `readConfig` names. -/
structure SimpleNeuralLM where
  ngram_size : Int
  input_vocab_size : Int
  output_vocab_size : Int
  input_embedding_dimension : Int
  num_hidden : Int
  output_embedding_dimension : Int
  activation : activation_function_type
deriving DecidableEq, Repr

/-- A line written to `cerr` by `readConfig`. -/
inductive CerrLine where
  | formatMismatch (version : Int) : CerrLine
  | unrecognizedField (token : String) : CerrLine
deriving DecidableEq, Repr

/-- What `readConfig` acts on: the object, the lines written to `cerr` so far, and the
status of `exit` once it has been called. -/
structure ConfigState where
  lm : SimpleNeuralLM
  cerr : List CerrLine
  exited : Option Int
deriving DecidableEq, Repr

/-- The test `std::isspace` in the classic locale. -/
def isSpace (c : Char) : Bool :=
  c.toNat = 32 || (9 ≤ c.toNat && c.toNat ≤ 13)

/-- The extraction `ss >> token` from a fresh stream over `line`: leading white space is
skipped and the characters up to the next white space are read; the result is the token
(empty when there is none) and what is left in the stream. -/
def extractToken (line : String) : String × String :=
  let s := line.data.dropWhile isSpace
  (String.mk (s.takeWhile (fun c => !isSpace c)), String.mk (s.dropWhile (fun c => !isSpace c)))

/-- The body of the `while` loop of `readConfig` for one line.  `extractInt ss old` is the
content of an `int` variable holding `old` after `ss >> variable`; `indeterminate` is the
initial content of the local `version`.  The branch of `activation_function` extracts into
a local string named `activation`, which hides the member, so that no member changes. -/
def readConfigLine (extractInt : String → Int → Int) (indeterminate : Int) (st : ConfigState)
    (line : String) : ConfigState :=
  let token := (extractToken line).1
  let ss := (extractToken line).2
  if token = "ngram_size" then
    { st with lm := { st.lm with ngram_size := extractInt ss st.lm.ngram_size } }
  else if token = "vocab_size" then
    let input_vocab_size := extractInt ss st.lm.input_vocab_size
    { st with lm := { st.lm with input_vocab_size := input_vocab_size
                                 output_vocab_size := input_vocab_size } }
  else if token = "input_vocab_size" then
    { st with lm := { st.lm with input_vocab_size := extractInt ss st.lm.input_vocab_size } }
  else if token = "output_vocab_size" then
    { st with lm := { st.lm with output_vocab_size := extractInt ss st.lm.output_vocab_size } }
  else if token = "input_embedding_dimension" then
    { st with lm := { st.lm with
        input_embedding_dimension := extractInt ss st.lm.input_embedding_dimension } }
  else if token = "num_hidden" then
    { st with lm := { st.lm with num_hidden := extractInt ss st.lm.num_hidden } }
  else if token = "output_embedding_dimension" then
    { st with lm := { st.lm with
        output_embedding_dimension := extractInt ss st.lm.output_embedding_dimension } }
  else if token = "activation_function" then
    st
  else if token = "version" then
    let version := extractInt ss indeterminate
    if version ≠ 1 then
      { st with cerr := st.cerr ++ [CerrLine.formatMismatch version], exited := some 1 }
    else st
  else if token = "auxiliary_softmax" then
    { st with lm := { st.lm with num_hidden := extractInt ss st.lm.num_hidden } }
  else
    { st with cerr := st.cerr ++ [CerrLine.unrecognizedField token] }

/-- The method `SimpleNeuralLM::readConfig` on the lines that `getline` still finds in the
file: the state at the end and the lines left in the file.  The loop ends at the end of the
file, at an empty line (which is consumed), or with `exit`. -/
def readConfig (extractInt : String → Int → Int) (indeterminate : Int) :
    List String → ConfigState → ConfigState × List String
  | [], st => (st, [])
  | line :: rest, st =>
    if line = "" then (st, rest)
    else
      let st1 := readConfigLine extractInt indeterminate st line
      match st1.exited with
      | some _ => (st1, rest)
      | none => readConfig extractInt indeterminate rest st1

/-- The tokens `readConfig` knows. -/
def recognizedTokens : List String :=
  ["ngram_size", "vocab_size", "input_vocab_size", "output_vocab_size",
    "input_embedding_dimension", "num_hidden", "output_embedding_dimension",
    "activation_function", "version", "auxiliary_softmax"]

/-! ## Vocabulary of the statements about linear mode -/

/-- The words at the positions `start`, ..., `start + n - 1` of the target side of a
hypothesis. -/
def targetWords (hypo : Hypothesis) : Nat → Nat → List Word
  | _, 0 => []
  | start, n + 1 => hypo.word start :: targetWords hypo (start + 1) n

/-- Scoring words one after another, starting from a model state: the raw score of every
word, in order, and the state after the last word. -/
def scoreChain {St S : Type} (lm : LanguageModelKen St S) : St → List Word → List S × St
  | st, [] => ([], st)
  | st, word :: rest =>
    ((lm.m_ngram.Score st (TranslateID lm.m_lmIdLookup word)).1
        :: (scoreChain lm (lm.m_ngram.Score st (TranslateID lm.m_lmIdLookup word)).2 rest).1,
      (scoreChain lm (lm.m_ngram.Score st (TranslateID lm.m_lmIdLookup word)).2 rest).2)

/-- The sum of scores as `Evaluate` forms it: the first score, to which the following ones
are added one by one; zero when there is no score. -/
def sumScores {S : Type} [Zero S] [Add S] : List S → S
  | [] => 0
  | s :: rest => rest.foldl (fun total score => total + score) s

/-! ## A small concrete instance

The vocabulary `<unk>`, `<s>`, `</s>`, `the`, `cat`, `sat` with model indices `0` to `5`, an
order-3 model over integer scores, and a decoder that has met the word `dog` before the
model is loaded. -/

/-- Modelled from the spec: `FactorCollection::AddFactor`, whose class is not part of the
sources at hand.  It registers a surface form with the decoder's shared symbol table: a
known string keeps its id, a new one gets the next free id. -/
def internFactor (table : List String) (str : String) : List String × Nat :=
  if str ∈ table then (table, table.indexOf str) else (table ++ [str], table.length)

/-- The vocabulary list of the example model, as enumerated at load time. -/
def exampleVocab : List (Nat × String) :=
  [(0, "<unk>"), (1, "<s>"), (2, "</s>"), (3, "the"), (4, "cat"), (5, "sat")]

/-- The builder after the load; the decoder had registered `dog` (factor id 0) before. -/
def exampleBuilder : MappingBuilder (List String) :=
  MappingBuilder.AddAll internFactor { m_factorCollection := ["dog"], m_mapping := [] }
    exampleVocab

/-- The word of the example decoder with the given surface form. -/
def exampleWord (str : String) : Word :=
  { factor := (internFactor exampleBuilder.m_factorCollection str).2, isNonTerminal := false }

/-- Raw score of a word after a context (most recent word first) in the example model. -/
def exampleProb (context : List Nat) (word : Nat) : Int :=
  -(1 + (word : Int) + 10 * (context.length : Int))

/-- An order-3 model whose state is the list of the last two words, most recent first. -/
def exampleModel : Model (List Nat) Int where
  Order := 3
  Order_ge_two := by decide
  BeginSentenceState := [1]
  NullContextState := []
  Score := fun st word => (exampleProb (st.take 2) word, (word :: st).take 2)
  FullScoreForgotState := fun context word =>
    (exampleProb (context.take 2) word, (word :: context).take 2)
  GetState := fun context => context.take 2
  BeginSentence := 1
  EndSentence := 2

/-- The example language model; doubling stands for a `TransformLMScore` that is not the
identity. -/
def exampleLM : LanguageModelKen (List Nat) Int where
  m_ngram := exampleModel
  m_lmIdLookup := exampleBuilder.m_mapping
  m_beginSentenceFactor := (exampleWord "<s>").factor
  OOVFeatureEnabled := false
  TransformLMScore := fun score => 2 * score

/-- The target side `the cat sat` of the example decoder; further positions hold `dog`. -/
def exampleTarget (position : Nat) : Word :=
  match position with
  | 0 => exampleWord "the"
  | 1 => exampleWord "cat"
  | 2 => exampleWord "sat"
  | _ => exampleWord "dog"

/-- A hypothesis that adds the last word `sat` (position 2) and completes the source. -/
def exampleLastHypo : Hypothesis where
  currTargetLength := 1
  startPos := 2
  endPos := 2
  word := exampleTarget
  isSourceCompleted := true

/-- A hypothesis that covers the last source word with an empty target phrase after
`the cat sat`: it adds no target word and completes the source. -/
def exampleEmptyHypo : Hypothesis where
  currTargetLength := 0
  startPos := 3
  endPos := 2
  word := exampleTarget
  isSourceCompleted := true

/-- A binding of two elements with hypothesis sets at addresses 7 and 8, `numNT = 1`. -/
def exampleBinds : SymbolBind :=
  { coll := [{ range := 10, word := 20, hypos := 7 }, { range := 11, word := 21, hypos := 8 }],
    numNT := 1 }

/-- An arena holding an empty binding at address 0 and `exampleBinds` at address 1. -/
def examplePool : MemPool :=
  { objects := [SymbolBind.create, exampleBinds] }

/-- The rule scorer of the example model. -/
def exampleRuleScore : RuleScore (RuleScoreVars Int) ChartState Int :=
  specRuleScore exampleModel

/-- The chart hypothesis of the rule `<s> the`, which has no non-terminal. -/
def exampleSentenceRule : ChartHypothesis ChartState Int where
  targetPhrase := [exampleWord "<s>", exampleWord "the"]
  nonTermIndexMap := fun _ => 0
  prevHypo := fun _ => ({ left := [], full := false, right := [] }, 0)

/-- The chart hypothesis of the rule `sat down`; `down` is not in the vocabulary. -/
def exampleInnerRule : ChartHypothesis ChartState Int where
  targetPhrase := [exampleWord "sat", exampleWord "down"]
  nonTermIndexMap := fun _ => 0
  prevHypo := fun _ => ({ left := [], full := false, right := [] }, 0)

/-- The chart hypothesis of the rule `the cat X` whose non-terminal is filled by the
hypothesis of `sat down`, with the chart state and score `EvaluateChart` gave to it. -/
def exampleOuterRule : ChartHypothesis ChartState Int where
  targetPhrase :=
    [exampleWord "the", exampleWord "cat",
      { factor := (exampleWord "X").factor, isNonTerminal := true }]
  nonTermIndexMap := fun _ => 0
  prevHypo := fun _ =>
    ((EvaluateChart exampleLM exampleRuleScore exampleInnerRule { lm := 0, oov := 0 }).1,
      (EvaluateChart exampleLM exampleRuleScore exampleInnerRule { lm := 0, oov := 0 }).2.lm)

/-- The flattened target side `the cat sat down` of the two example rules. -/
def exampleFlat : List Word :=
  [exampleWord "the", exampleWord "cat", exampleWord "sat", exampleWord "down"]

/-- The derivation of the example: rule `the cat X` with `X` filled by rule `sat down`. -/
def exampleDerivation : Derivation :=
  .terminal (exampleWord "the") (.terminal (exampleWord "cat")
    (.nonTerminal { factor := (exampleWord "X").factor, isNonTerminal := true }
      (.terminal (exampleWord "sat") (.terminal (exampleWord "down") .done)) .done))

/-- A state holding the two context words `4 3`. -/
def exampleStateA : KenLMState :=
  { state := { words := fun i => if i = 0 then 4 else 3, length := 2 } }

/-- A state holding the two context words `4 5`; entries past `length` differ from those of
`exampleStateA` as well. -/
def exampleStateB : KenLMState :=
  { state := { words := fun i => if i = 0 then 4 else 5, length := 2 } }

/-- A state holding the three context words `1 1 1`. -/
def exampleStateC : KenLMState :=
  { state := { words := fun _ => 1, length := 3 } }

/-- A `Phrase::Find` for the examples: the position of the first occurrence of `sought` as
a contiguous part of the phrase, `NOT_FOUND` if there is none; the bound on unknown words
is not used. -/
def exampleFind (phrase sought : Phrase) (maxUnknown : Int) : Nat :=
  match (List.range (phrase.length + 1)).find?
      (fun i => decide ((phrase.drop i).take sought.length = sought)) with
  | some i => if maxUnknown < 0 then NOT_FOUND else i
  | none => NOT_FOUND

/-- A feature with the references `the cat sat` and `the cat` for sentence 0 and none for
any other sentence. -/
def exampleDeseg : ConstrainedDecodingDeseg where
  m_constraints := fun id =>
    if id = 0 then
      some [[exampleWord "the", exampleWord "cat", exampleWord "sat"],
        [exampleWord "the", exampleWord "cat"]]
    else none
  m_maxUnknowns := 0
  m_negate := false
  m_soft := false

/-- A completed phrase-based hypothesis of sentence 0 with the output `the cat`. -/
def exampleDesegHypo : DesegHypothesis where
  translationId := 0
  outputPhrase := [exampleWord "the", exampleWord "cat"]
  isSourceCompleted := true

/-- A chart hypothesis of sentence 0 with the output `the cat` that covers the whole
source of three words. -/
def exampleDesegChartHypo : DesegChartHypothesis where
  translationId := 0
  outputPhrase := [exampleWord "the", exampleWord "cat"]
  currSourceStartPos := 0
  currSourceEndPos := 2
  sourceSize := 3

/-- A stand-in for `float` in the examples: an integer value, an infinity, or not a number. -/
inductive ExampleFloat where
  | finite (value : Int) : ExampleFloat
  | infinity : ExampleFloat
  | minusInfinity : ExampleFloat
  | notANumber : ExampleFloat
deriving DecidableEq, Repr

instance : Zero ExampleFloat := ⟨.finite 0⟩

instance : One ExampleFloat := ⟨.finite 1⟩

instance : Neg ExampleFloat :=
  ⟨fun x => match x with
    | .finite v => .finite (-v)
    | .infinity => .minusInfinity
    | .minusInfinity => .infinity
    | .notANumber => .notANumber⟩

instance : Add ExampleFloat :=
  ⟨fun x y => match x, y with
    | .finite v, .finite w => .finite (v + w)
    | .notANumber, _ => .notANumber
    | _, .notANumber => .notANumber
    | .infinity, .minusInfinity => .notANumber
    | .minusInfinity, .infinity => .notANumber
    | .infinity, _ => .infinity
    | _, .infinity => .infinity
    | .minusInfinity, _ => .minusInfinity
    | _, .minusInfinity => .minusInfinity⟩

/-- An `int` extraction for the examples, after `operator>>` of the standard library in the
classic locale: leading white space is skipped; when nothing is left after it the variable
keeps its value; otherwise an optional sign and the decimal digits that follow are read,
the variable becoming zero when there is no digit, and the number read, limited to the
range of a 32-bit `int`, when there is one. -/
def exampleExtractInt (ss : String) (old : Int) : Int :=
  match ss.data.dropWhile isSpace with
  | [] => old
  | c :: rest =>
    let signed := c.toNat = 45 || c.toNat = 43
    let digits := (if signed then rest else c :: rest).takeWhile Char.isDigit
    let magnitude := digits.foldl (fun acc d => 10 * acc + ((d.toNat : Int) - 48)) 0
    if digits = [] then 0
    else if c.toNat = 45 then max (-2147483648) (-magnitude)
    else min 2147483647 magnitude

/-- The object before its configuration is read. -/
def exampleConfigState : ConfigState where
  lm :=
    { ngram_size := 0, input_vocab_size := 0, output_vocab_size := 0
      input_embedding_dimension := 0, num_hidden := 0, output_embedding_dimension := 0
      activation := activation_function_type.InvalidFunction }
  cerr := []
  exited := none

/-- A hypothesis whose target side so far is `the cat`, exactly `order - 1 = 2` words, and
which completes the source. -/
def exampleShortHypo : Hypothesis where
  currTargetLength := 2
  startPos := 0
  endPos := 1
  word := exampleTarget
  isSourceCompleted := true

/-- A hypothesis that adds `the cat` (positions 0 and 1) and does not complete the source. -/
def exampleTwoWordHypo : Hypothesis where
  currTargetLength := 2
  startPos := 0
  endPos := 1
  word := exampleTarget
  isSourceCompleted := false

theorem TranslateID_nil (w : Word) : TranslateID [] w = 0 := by
  simp [TranslateID]

theorem TranslateID_set_grow (v : List Nat) (factorId index : Nat) (w : Word) :
    TranslateID ((if v.length ≤ factorId then vectorResize v (factorId + 1) else v).set
      factorId index) w
      = if w.factor = factorId then index else TranslateID v w := by
  unfold TranslateID vectorResize
  by_cases hle : v.length ≤ factorId
  · have hlt : v.length < factorId + 1 := Nat.lt_succ_of_le hle
    simp only [hle, hlt, if_true, List.length_set, List.length_append, List.length_replicate]
    have hlen : v.length + (factorId + 1 - v.length) = factorId + 1 := by omega
    rw [hlen]
    by_cases hf : w.factor = factorId
    · have h1 : factorId < v.length + (factorId + 1 - v.length) := by omega
      simp [hf, List.getD_eq_getElem?_getD, List.getElem?_set, h1]
    · by_cases hge : w.factor ≥ factorId + 1
      · have : w.factor ≥ v.length := by omega
        simp [hf, hge, this]
      · have hlt2 : w.factor < factorId := by omega
        simp only [hge, if_false, hf]
        rw [List.getD_eq_getElem?_getD, List.getElem?_set_ne (Ne.symm hf)]
        by_cases hv : w.factor ≥ v.length
        · simp only [hv, if_true]
          rw [List.getElem?_append_right hv, List.getElem?_replicate]
          have : w.factor - v.length < factorId + 1 - v.length := by omega
          simp [this]
        · simp only [hv, if_false]
          rw [List.getElem?_append_left (by omega), List.getD_eq_getElem?_getD]
  · simp only [hle, if_false, List.length_set]
    by_cases hf : w.factor = factorId
    · have h1 : factorId < v.length := by omega
      have h2 : ¬ factorId ≥ v.length := by omega
      simp [hf, h1, List.getD_eq_getElem?_getD, List.getElem?_set]
    · simp only [hf, if_false]
      rw [List.getD_eq_getElem?_getD, List.getElem?_set_ne (Ne.symm hf),
        List.getD_eq_getElem?_getD]

theorem TranslateID_Add {FC : Type} (addFactor : FC → String → FC × Nat)
    (b : MappingBuilder FC) (index : Nat) (str : String) (w : Word) :
    TranslateID (b.Add addFactor index str).m_mapping w
      = if w.factor = (addFactor b.m_factorCollection str).2 then index
        else TranslateID b.m_mapping w := by
  simp only [MappingBuilder.Add]
  exact TranslateID_set_grow b.m_mapping _ index w

theorem Add_factorCollection {FC : Type} (addFactor : FC → String → FC × Nat)
    (b : MappingBuilder FC) (index : Nat) (str : String) :
    (b.Add addFactor index str).m_factorCollection = (addFactor b.m_factorCollection str).1 := by
  simp [MappingBuilder.Add]

theorem TranslateID_AddAll {FC : Type} (addFactor : FC → String → FC × Nat)
    (adds : List (Nat × String)) (b : MappingBuilder FC) (w : Word) :
    TranslateID (MappingBuilder.AddAll addFactor b adds).m_mapping w
      = match lastIndexFor w.factor (registrations addFactor b.m_factorCollection adds) with
        | some index => index
        | none => TranslateID b.m_mapping w := by
  induction adds generalizing b with
  | nil => simp [MappingBuilder.AddAll, registrations, lastIndexFor]
  | cons a rest ih =>
    obtain ⟨index, str⟩ := a
    simp only [MappingBuilder.AddAll, registrations, lastIndexFor]
    rw [ih, Add_factorCollection, TranslateID_Add]
    cases lastIndexFor w.factor
        (registrations addFactor (addFactor b.m_factorCollection str).1 rest) with
    | some later => rfl
    | none =>
      by_cases h : (addFactor b.m_factorCollection str).2 = w.factor
      · simp [h]
      · have h2 : ¬ w.factor = (addFactor b.m_factorCollection str).2 := fun e => h e.symm
        simp [h, h2]

theorem lastIndexFor_eq_none (f : Nat) (regs : List (Nat × Nat)) :
    lastIndexFor f regs = none ↔ f ∉ regs.map Prod.fst := by
  induction regs with
  | nil => simp [lastIndexFor]
  | cons a rest ih =>
    obtain ⟨factorId, index⟩ := a
    simp only [lastIndexFor, List.map_cons, List.mem_cons, not_or]
    cases h : lastIndexFor f rest with
    | some later =>
      have hin : ¬ (f ∉ rest.map Prod.fst) := fun hn => by simp [ih.mpr hn] at h
      constructor
      · intro h0
        cases h0
      · intro h0
        exact absurd h0.2 hin
    | none =>
      have hn : f ∉ rest.map Prod.fst := ih.mp h
      by_cases e : factorId = f
      · simp [e]
      · have e2 : ¬ f = factorId := fun x => e x.symm
        simp [e, e2, hn]

/-- C1 (vocabulary mapping).  After `MappingBuilder` has processed any sequence of `Add`
calls starting from an empty table, `TranslateID` of a word with factor id `f` is the index
of the last `Add` whose string was registered under `f`, and the unknown identifier `0`
when no `Add` registered `f` (whether `f` lies beyond the table or inside it); being a
function of the table and the word, it answers repeated queries alike. -/
theorem C1_vocabulary_mapping {FC : Type} (addFactor : FC → String → FC × Nat) (fc : FC)
    (adds : List (Nat × String)) (w : Word) :
    TranslateID
        (MappingBuilder.AddAll addFactor { m_factorCollection := fc, m_mapping := [] }
          adds).m_mapping w
      = (lastIndexFor w.factor (registrations addFactor fc adds)).getD 0
    ∧ (lastIndexFor w.factor (registrations addFactor fc adds) = none
        ↔ w.factor ∉ (registrations addFactor fc adds).map Prod.fst) := by
  refine ⟨?_, lastIndexFor_eq_none _ _⟩
  rw [TranslateID_AddAll]
  cases lastIndexFor w.factor (registrations addFactor fc adds) with
  | some index => rfl
  | none => simp [TranslateID_nil]


/-! ### Phrase scoring and linear mode -/

/-- C2 (empty phrase).  `CalcScore` on a phrase of size 0 returns `fullScore = 0`,
`ngramScore = 0` and `oovCount = 0`, for every content of the three output parameters
before the call and for every model: the result does not depend on the model. -/
theorem C2_CalcScore_empty_phrase {St S : Type} [Zero S] [Add S] (lm : LanguageModelKen St S)
    (prior : CalcScoreOut S) :
    CalcScore lm [] prior = { fullScore := 0, ngramScore := 0, oovCount := 0 } := by
  rfl

theorem CalcScoreLoop_oovCount {St S : Type} [Add S] (lm : LanguageModelKen St S)
    (ngramBoundary : Nat) (words : List Word) (position : Nat) (state0 : St)
    (acc : CalcScoreOut S) :
    (CalcScoreLoop lm ngramBoundary words position state0 acc).oovCount
      = acc.oovCount
        + ((words.filter (fun w => !w.isNonTerminal)).filter
            (fun w => TranslateID lm.m_lmIdLookup w = 0)).length := by
  induction words generalizing position state0 acc with
  | nil => simp [CalcScoreLoop]
  | cons word rest ih =>
    by_cases hnt : word.isNonTerminal = true
    · simp [CalcScoreLoop, hnt, ih]
    · by_cases hz : TranslateID lm.m_lmIdLookup word = 0
      · simp [CalcScoreLoop, hnt, hz, ih]
        omega
      · simp [CalcScoreLoop, hnt, hz, ih]

/-- C3 (OOV count).  For every phrase the `oovCount` returned by `CalcScore` is the number
of scored terminal words (the words that are not non-terminals, without a sentence-begin
marker at position 0) whose `TranslateID` is the unknown identifier `0`.  In particular a
two-word phrase of terminals whose first word is known to the mapping and whose second is
not yields `oovCount = 1`, as does `the dog` against the example vocabulary, which
registers `the` but not `dog`. -/
theorem C3_CalcScore_oovCount {St S : Type} [Zero S] [Add S] (lm : LanguageModelKen St S)
    (phrase : List Word) (prior : CalcScoreOut S) :
    (CalcScore lm phrase prior).oovCount
      = ((scoredWords lm.m_beginSentenceFactor phrase).filter
          (fun w => TranslateID lm.m_lmIdLookup w = 0)).length
    ∧ (∀ the dog : Word, the.isNonTerminal = false → dog.isNonTerminal = false →
        TranslateID lm.m_lmIdLookup the ≠ 0 → TranslateID lm.m_lmIdLookup dog = 0 →
          (CalcScore lm [the, dog] prior).oovCount = 1)
    ∧ TranslateID exampleLM.m_lmIdLookup (exampleWord "the") = 3
    ∧ TranslateID exampleLM.m_lmIdLookup (exampleWord "dog") = 0
    ∧ (CalcScore exampleLM [exampleWord "the", exampleWord "dog"]
        { fullScore := 7, ngramScore := 7, oovCount := 7 }).oovCount = 1 := by
  have general : ∀ ws : List Word, (CalcScore lm ws prior).oovCount
      = ((scoredWords lm.m_beginSentenceFactor ws).filter
          (fun w => TranslateID lm.m_lmIdLookup w = 0)).length := by
    intro ws
    cases ws with
    | nil => rfl
    | cons word0 rest =>
      by_cases hb : lm.m_beginSentenceFactor = word0.factor
      · simp only [CalcScore, scoredWords, hb, if_true]
        rw [CalcScoreLoop_oovCount]
        simp
      · simp only [CalcScore, scoredWords, hb, if_false]
        rw [CalcScoreLoop_oovCount]
        simp
  refine ⟨general phrase, ?_, by decide, by decide, by decide⟩
  intro the dog hthe hdog hknown hunknown
  rw [general]
  by_cases hb : lm.m_beginSentenceFactor = the.factor
  · simp [scoredWords, hb, hdog, hunknown]
  · simp [scoredWords, hb, hthe, hdog, hknown, hunknown]

/-- C4 (no target words).  For every hypothesis whose current target length is 0,
`Evaluate` returns the previous state and leaves the score accumulator as it was. -/
theorem C4_Evaluate_empty_target {St S : Type} [Zero S] [Add S] (lm : LanguageModelKen St S)
    (hypo : Hypothesis) (ps aux_state : St) (out : ScoreAccum S)
    (h : hypo.currTargetLength = 0) :
    Evaluate lm hypo ps aux_state out = some (ps, out) := by
  simp [Evaluate, h]

/-- Witness of C4: the example hypothesis with an empty target phrase. -/
theorem C4_Evaluate_empty_target_witness :
    exampleEmptyHypo.currTargetLength = 0
    ∧ Evaluate exampleLM exampleEmptyHypo [4, 3] [] { lm := -5, oov := 0 }
        = some ([4, 3], { lm := -5, oov := 0 }) :=
  ⟨rfl, C4_Evaluate_empty_target exampleLM exampleEmptyHypo [4, 3] [] { lm := -5, oov := 0 } rfl⟩

theorem PlusEqualsScore_lm {S : Type} [Zero S] [Add S] (b : Bool) (out : ScoreAccum S)
    (score : S) : (PlusEqualsScore b out score).lm = out.lm + score := by
  cases b <;> rfl

/-! ### Chart mode -/

/-- C6 at the failing input (chart scores are not transformed).  Whatever the rule scorer,
`EvaluateChart` assigns to the accumulator the very value `Finish` returns.  For the rule
`<s> the` of the example, the raw model score of `the` after `<s>` is `-14`; `CalcScore`
and `Evaluate` hand out its transform `-28`, while `EvaluateChart` assigns the
untransformed `-14`. -/
theorem C6_EvaluateChart_not_transformed :
    (∀ (R C : Type) (ruleScore : RuleScore R C Int) (hypo : ChartHypothesis C Int)
        (accumulator : ScoreAccum Int),
      (EvaluateChart exampleLM ruleScore hypo accumulator).2.lm
        = (ruleScore.Finish (EvaluateChartRun exampleLM ruleScore hypo)).1)
    ∧ (exampleModel.Score exampleModel.BeginSentenceState 3).1 = -14
    ∧ exampleLM.TransformLMScore (-14) = -28
    ∧ (CalcScore exampleLM exampleSentenceRule.targetPhrase
        { fullScore := 0, ngramScore := 0, oovCount := 0 }).fullScore = -28
    ∧ (Evaluate exampleLM
        { currTargetLength := 1, startPos := 0, endPos := 0, word := fun _ => exampleWord "the",
          isSourceCompleted := false }
        exampleModel.BeginSentenceState [] { lm := 0, oov := 0 }).map (fun r => r.2.lm)
      = some (-28)
    ∧ (EvaluateChart exampleLM exampleRuleScore exampleSentenceRule { lm := 0, oov := 0 }).2.lm
        = -14 := by
  refine ⟨fun _ _ _ _ _ => rfl, ?_⟩
  decide

theorem EvaluateChartLoop_steps {St S R C : Type} (lm : LanguageModelKen St S)
    (ruleScore : RuleScore R C S) (hypo : ChartHypothesis C S) (words : List Word) (p : Nat)
    (r : R) :
    EvaluateChartLoop lm ruleScore hypo words (p + 1) r
      = (stepsFrom lm hypo (p + 1) words).foldl (RuleStep.perform ruleScore) r := by
  induction words generalizing p r with
  | nil => rfl
  | cons word rest ih =>
    by_cases hnt : word.isNonTerminal = true
    · simp [EvaluateChartLoop, stepsFrom, stepOfSymbol, hnt, ih, RuleStep.perform]
    · simp [EvaluateChartLoop, stepsFrom, stepOfSymbol, hnt, ih, RuleStep.perform]

theorem EvaluateChartRun_steps {St S R C : Type} (lm : LanguageModelKen St S)
    (ruleScore : RuleScore R C S) (hypo : ChartHypothesis C S) :
    EvaluateChartRun lm ruleScore hypo
      = (stepsFrom lm hypo 0 hypo.targetPhrase).foldl (RuleStep.perform ruleScore)
          ruleScore.start := by
  unfold EvaluateChartRun
  cases hypo.targetPhrase with
  | nil => rfl
  | cons word rest =>
    by_cases hb : word.factor = lm.m_beginSentenceFactor
    · simp [stepsFrom, stepOfSymbol, hb, RuleStep.perform, EvaluateChartLoop_steps]
    · by_cases hnt : word.isNonTerminal = true
      · simp [stepsFrom, stepOfSymbol, hb, hnt, RuleStep.perform, EvaluateChartLoop_steps]
      · simp [stepsFrom, stepOfSymbol, hb, hnt, RuleStep.perform, EvaluateChartLoop,
          EvaluateChartLoop_steps]

theorem stepsFrom_getElem? {St S C : Type} (lm : LanguageModelKen St S)
    (hypo : ChartHypothesis C S) (words : List Word) (p i : Nat) :
    (stepsFrom lm hypo p words)[i]? = (words[i]?).map (stepOfSymbol lm hypo (p + i)) := by
  induction words generalizing p i with
  | nil => simp [stepsFrom]
  | cons word rest ih =>
    cases i with
    | zero => simp [stepsFrom]
    | succ i =>
      simp only [stepsFrom, List.getElem?_cons_succ, ih]
      have : p + 1 + i = p + (i + 1) := by omega
      rw [this]

theorem stepsFrom_length {St S C : Type} (lm : LanguageModelKen St S)
    (hypo : ChartHypothesis C S) (words : List Word) (p : Nat) :
    (stepsFrom lm hypo p words).length = words.length := by
  induction words generalizing p with
  | nil => rfl
  | cons word rest ih => simp [stepsFrom, ih]

/-- C7 (rule scoring steps).  For every rule target phrase of `n` symbols and every rule
scorer, `EvaluateChart` performs exactly `n` calls on the scorer before `Finish`, the call
at position `p` being the step of the symbol at `p`: `BeginSentence` for a sentence-begin
marker at position 0; for a non-terminal a splice (`BeginNonTerminal` at position 0,
`NonTerminal` elsewhere) of the chart state and known score of the dominated hypothesis
selected by `nonTermIndexMap[p]`; `Terminal(TranslateID(word))` for every other symbol.
A `Terminal` call is only ever made for a symbol of the rule itself that is not a
non-terminal.  The value assigned to the accumulator is what `Finish` returns. -/
theorem C7_EvaluateChart_steps {St S R C : Type} (lm : LanguageModelKen St S)
    (ruleScore : RuleScore R C S) (hypo : ChartHypothesis C S) (accumulator : ScoreAccum S) :
    EvaluateChartRun lm ruleScore hypo
      = (stepsFrom lm hypo 0 hypo.targetPhrase).foldl (RuleStep.perform ruleScore)
          ruleScore.start
    ∧ (stepsFrom lm hypo 0 hypo.targetPhrase).length = hypo.targetPhrase.length
    ∧ (∀ p : Nat, (stepsFrom lm hypo 0 hypo.targetPhrase)[p]?
        = (hypo.targetPhrase[p]?).map (stepOfSymbol lm hypo p))
    ∧ (∀ (p : Nat) (word : Word) (id : Nat), stepOfSymbol lm hypo p word = .Terminal id →
        word.isNonTerminal = false ∧ id = TranslateID lm.m_lmIdLookup word)
    ∧ EvaluateChart lm ruleScore hypo accumulator
      = ((ruleScore.Finish (EvaluateChartRun lm ruleScore hypo)).2,
          { lm := (ruleScore.Finish (EvaluateChartRun lm ruleScore hypo)).1,
            oov := accumulator.oov }) := by
  refine ⟨EvaluateChartRun_steps lm ruleScore hypo, stepsFrom_length lm hypo _ 0, ?_, ?_, rfl⟩
  · intro p
    rw [stepsFrom_getElem?]
    simp
  · intro p word id h
    simp only [stepOfSymbol] at h
    split at h
    · cases h
    · split at h
      · split at h <;> cases h
      · rename_i hnt
        injection h with h
        exact ⟨by simpa using hnt, h.symm⟩

/-! ### Exactness of the modelled rule scorer in the raw score domain -/

theorem take_append_take {α : Type} (a b : List α) (n : Nat) :
    (a ++ b.take n).take n = (a ++ b).take n := by
  rw [List.take_append_eq_append_take, List.take_append_eq_append_take, List.take_take]
  congr 2
  omega

theorem take_cons_take {α : Type} (w : α) (l : List α) (n : Nat) :
    (w :: l.take n).take n = (w :: l).take n :=
  take_append_take [w] l n

theorem take_cons_congr {α : Type} (w : α) (c1 c2 : List α) (n : Nat)
    (h : c1.take n = c2.take n) : (w :: c1).take n = (w :: c2).take n := by
  rw [← take_cons_take w c1, ← take_cons_take w c2, h]

theorem linearRaw_congr {St S : Type} [Zero S] [Add S] (m : Model St S) (ws : List Nat)
    (c1 c2 : List Nat) (h : c1.take (m.Order - 1) = c2.take (m.Order - 1)) :
    linearRaw m c1 ws = linearRaw m c2 ws := by
  induction ws generalizing c1 c2 with
  | nil => rfl
  | cons w rest ih =>
    simp only [linearRaw, h]
    rw [ih (w :: c1) (w :: c2) (take_cons_congr w c1 c2 _ h)]

theorem linearRaw_append {St S : Type} [AddCommGroup S] (m : Model St S) (ws vs : List Nat)
    (c : List Nat) :
    linearRaw m c (ws ++ vs) = linearRaw m c ws + linearRaw m (ws.reverse ++ c) vs := by
  induction ws generalizing c with
  | nil => simp [linearRaw]
  | cons w rest ih =>
    rw [List.cons_append]
    simp only [linearRaw]
    rw [ih (w :: c)]
    simp only [List.reverse_cons, List.append_assoc, List.singleton_append, add_assoc]

theorem spliceLeft_eq {St S : Type} [AddCommGroup S] (m : Model St S) (R vs : List Nat)
    (seen : List Nat) (p : S) :
    spliceLeft m (R.take (m.Order - 1)) seen (vs.take (m.Order - 1 - seen.length)) p
      = p + (linearRaw m (seen ++ R) vs - linearRaw m seen vs) := by
  induction vs generalizing seen p with
  | nil => simp [spliceLeft, linearRaw]
  | cons v rest ih =>
    by_cases hlen : m.Order - 1 ≤ seen.length
    · have h0 : m.Order - 1 - seen.length = 0 := by omega
      have hc : (seen ++ R).take (m.Order - 1) = seen.take (m.Order - 1) := by
        rw [List.take_append_of_le_length hlen]
      rw [h0, List.take_zero, linearRaw_congr m (v :: rest) (seen ++ R) seen hc]
      simp [spliceLeft]
    · have hs : m.Order - 1 - seen.length = (m.Order - 1 - (v :: seen).length) + 1 := by
        simp only [List.length_cons]
        omega
      rw [hs, List.take_succ_cons]
      simp only [spliceLeft]
      rw [ih (v :: seen)]
      simp only [linearRaw, List.cons_append]
      rw [take_append_take seen R, List.take_of_length_le (by omega : seen.length ≤ m.Order - 1)]
      abel

theorem summary_start {St S : Type} [AddCommGroup S] (m : Model St S) (h : 2 ≤ m.Order) :
    (specRuleScore m).start = summary m false [] := by
  have hn : ¬ m.Order - 1 ≤ 0 := by omega
  simp [specRuleScore, summary, linearRaw, hn]

theorem summary_BeginSentence {St S : Type} [AddCommGroup S] (m : Model St S)
    (h : 2 ≤ m.Order) :
    (specRuleScore m).BeginSentence (specRuleScore m).start = summary m true [] := by
  have hn : m.Order - 1 = (m.Order - 2) + 1 := by omega
  simp only [specRuleScore, summary, linearRaw, if_true, Bool.true_or, List.reverse_nil,
    List.nil_append]
  rw [hn]
  simp

theorem summary_Terminal {St S : Type} [AddCommGroup S] (m : Model St S) (a : Bool)
    (ws : List Nat) (w : Nat) :
    (specRuleScore m).Terminal (summary m a ws) w = summary m a (ws ++ [w]) := by
  simp only [specRuleScore, summary, RuleScoreVars.mk.injEq, ChartState.mk.injEq]
  refine ⟨?_, ?_, ?_, ?_⟩
  · rw [linearRaw_append]
    simp only [linearRaw, add_zero]
  · cases a with
    | true => simp
    | false =>
      simp only [Bool.false_or, decide_eq_true_eq, Bool.false_eq_true, if_false]
      by_cases hf : m.Order - 1 ≤ ws.length
      · simp only [hf, if_true]
        rw [List.take_append_of_le_length hf]
      · simp only [hf, if_false]
        rw [List.take_of_length_le (by omega : ws.length ≤ m.Order - 1)]
  · cases a with
    | true => simp
    | false =>
      simp only [Bool.false_or, decide_eq_true_eq, Bool.false_eq_true, if_false]
      by_cases hf : m.Order - 1 ≤ ws.length
      · simp [hf]
        omega
      · simp only [hf, if_false, decide_False, Bool.false_or]
        rw [List.take_of_length_le (by omega : ws.length ≤ m.Order - 1)]
        simp
  · rw [take_cons_take]
    simp

theorem summary_NonTerminal {St S : Type} [AddCommGroup S] (m : Model St S) (a : Bool)
    (ws vs : List Nat) :
    (specRuleScore m).NonTerminal (summary m a ws) (summary m false vs).state
        (summary m false vs).prob
      = summary m a (ws ++ vs) := by
  simp only [specRuleScore, summary, RuleScoreVars.mk.injEq, ChartState.mk.injEq,
    Bool.false_or, Bool.false_eq_true, if_false, List.append_nil, decide_eq_true_eq]
  refine ⟨?_, ?_, ?_, ?_⟩
  · have key := spliceLeft_eq m (ws.reverse ++ (if a = true then [m.BeginSentence] else []))
      vs [] (linearRaw m (if a = true then [m.BeginSentence] else []) ws + linearRaw m [] vs)
    simp only [List.length_nil, Nat.sub_zero, List.nil_append] at key
    rw [key, linearRaw_append]
    abel
  · cases a with
    | true => simp
    | false =>
      simp only [Bool.false_or, decide_eq_true_eq, Bool.false_eq_true, if_false]
      by_cases hf : m.Order - 1 ≤ ws.length
      · simp only [hf, if_true]
        rw [List.take_append_of_le_length hf]
      · simp only [hf, if_false]
        rw [List.take_of_length_le (by omega : ws.length ≤ m.Order - 1), take_append_take]
  · cases a with
    | true => simp
    | false =>
      simp only [Bool.false_or, decide_eq_true_eq, Bool.false_eq_true, if_false]
      by_cases hf : m.Order - 1 ≤ ws.length
      · simp [hf]
        omega
      · simp only [hf, if_false, decide_False, Bool.false_or]
        rw [List.take_of_length_le (by omega : ws.length ≤ m.Order - 1), take_append_take]
        simp
        omega
  · by_cases hv : m.Order - 1 ≤ vs.length
    · simp only [hv, if_true, List.reverse_append, List.append_assoc]
      rw [List.take_append_of_le_length (by simpa using hv)]
    · simp only [hv, if_false, List.reverse_append, List.append_assoc]
      rw [List.take_of_length_le (by simp; omega : vs.reverse.length ≤ m.Order - 1),
        take_append_take]

theorem Finish_summary {St S : Type} [AddCommGroup S] (m : Model St S)
    (r : RuleScoreVars S) : (specRuleScore m).Finish r = (r.prob, r.state) := rfl

theorem BeginNonTerminal_summary {St S : Type} [AddCommGroup S] (m : Model St S)
    (r v : RuleScoreVars S) : (specRuleScore m).BeginNonTerminal r v.state v.prob = v := rfl

theorem headNotBegin_of_wellFormed (bos : Nat) (d : Derivation)
    (wf : d.wellFormed bos = true) : d.headNotBegin bos = true := by
  cases d with
  | done => rfl
  | terminal word rest =>
    simp only [Derivation.wellFormed, Bool.and_eq_true] at wf
    exact wf.1.2
  | nonTerminal label child rest =>
    simp only [Derivation.wellFormed, Bool.and_eq_true] at wf
    exact wf.1.1.2

theorem Derivation_chart_invariant {St S : Type} [AddCommGroup S] (lm : LanguageModelKen St S)
    (h2 : 2 ≤ lm.m_ngram.Order) (unused : ChartState × S) (d : Derivation)
    (wf : d.wellFormed lm.m_beginSentenceFactor = true) :
    (∀ (hypo : ChartHypothesis ChartState S) (p : Nat) (a : Bool) (ws : List Nat),
      (∀ i, hypo.prevHypo (hypo.nonTermIndexMap (p + i))
        = (d.results lm (specRuleScore lm.m_ngram) unused).getD i unused) →
      EvaluateChartLoop lm (specRuleScore lm.m_ngram) hypo d.targetPhrase p
          (summary lm.m_ngram a ws)
        = summary lm.m_ngram a (ws ++ d.ids lm.m_lmIdLookup))
    ∧ (d.headNotBegin lm.m_beginSentenceFactor = true →
      d.evaluate lm (specRuleScore lm.m_ngram) unused
        = ((summary lm.m_ngram false (d.ids lm.m_lmIdLookup)).state,
            (summary lm.m_ngram false (d.ids lm.m_lmIdLookup)).prob)) := by
  induction d with
  | done =>
    refine ⟨?_, ?_⟩
    · intro hypo p a ws _
      simp [Derivation.targetPhrase, Derivation.ids, Derivation.flatten, EvaluateChartLoop]
    · intro _
      simp only [Derivation.evaluate, evaluateRule, EvaluateChart, EvaluateChartRun,
        Derivation.targetPhrase, Derivation.ids, Derivation.flatten, List.map_nil]
      rw [summary_start lm.m_ngram h2]
      rfl
  | terminal word rest ih =>
    simp only [Derivation.wellFormed, Bool.and_eq_true, Bool.not_eq_true', bne_iff_ne,
      ne_eq] at wf
    obtain ⟨⟨hword, hfactor⟩, hrest⟩ := wf
    have loop : ∀ (hypo : ChartHypothesis ChartState S) (p : Nat) (a : Bool) (ws : List Nat),
        (∀ i, hypo.prevHypo (hypo.nonTermIndexMap (p + i))
          = ((Derivation.terminal word rest).results lm (specRuleScore lm.m_ngram)
              unused).getD i unused) →
        EvaluateChartLoop lm (specRuleScore lm.m_ngram) hypo
            (Derivation.terminal word rest).targetPhrase p (summary lm.m_ngram a ws)
          = summary lm.m_ngram a
              (ws ++ (Derivation.terminal word rest).ids lm.m_lmIdLookup) := by
      intro hypo p a ws hprev
      simp only [Derivation.targetPhrase, EvaluateChartLoop, hword, Bool.false_eq_true,
        if_false]
      rw [summary_Terminal, (ih hrest).1 hypo (p + 1) a _]
      · simp [Derivation.ids, Derivation.flatten]
      · intro i
        have := hprev (i + 1)
        simp only [Derivation.results, List.getD_cons_succ] at this
        rw [← this]
        congr 2
        omega
    refine ⟨loop, ?_⟩
    intro hhead
    simp only [Derivation.headNotBegin, bne_iff_ne, ne_eq] at hhead
    have run := loop
      { targetPhrase := (Derivation.terminal word rest).targetPhrase
        nonTermIndexMap := fun p => p
        prevHypo := fun i =>
          ((Derivation.terminal word rest).results lm (specRuleScore lm.m_ngram)
            unused).getD i unused }
      0 false [] (by intro i; simp)
    rw [← summary_start lm.m_ngram h2] at run
    simp only [List.nil_append] at run
    simp only [Derivation.evaluate, evaluateRule, EvaluateChart, EvaluateChartRun,
      Derivation.targetPhrase, hhead, hword, Bool.false_eq_true, if_false]
    simp only [Derivation.targetPhrase] at run
    rw [run]
    rfl
  | nonTerminal label child rest ihc ihr =>
    simp only [Derivation.wellFormed, Bool.and_eq_true, bne_iff_ne, ne_eq] at wf
    obtain ⟨⟨⟨hlabel, hfactor⟩, hchild⟩, hrest⟩ := wf
    have hchead := headNotBegin_of_wellFormed lm.m_beginSentenceFactor child hchild
    have hc := (ihc hchild).2 hchead
    simp only [Derivation.evaluate] at hc
    have loop : ∀ (hypo : ChartHypothesis ChartState S) (p : Nat) (a : Bool) (ws : List Nat),
        (∀ i, hypo.prevHypo (hypo.nonTermIndexMap (p + i))
          = ((Derivation.nonTerminal label child rest).results lm (specRuleScore lm.m_ngram)
              unused).getD i unused) →
        EvaluateChartLoop lm (specRuleScore lm.m_ngram) hypo
            (Derivation.nonTerminal label child rest).targetPhrase p (summary lm.m_ngram a ws)
          = summary lm.m_ngram a
              (ws ++ (Derivation.nonTerminal label child rest).ids lm.m_lmIdLookup) := by
      intro hypo p a ws hprev
      have h0 := hprev 0
      simp only [Derivation.results, List.getD_cons_zero, Nat.add_zero, hc] at h0
      simp only [Derivation.targetPhrase, EvaluateChartLoop, hlabel, if_true, h0]
      rw [summary_NonTerminal, (ihr hrest).1 hypo (p + 1) a _]
      · simp [Derivation.ids, Derivation.flatten]
      · intro i
        have := hprev (i + 1)
        simp only [Derivation.results, List.getD_cons_succ] at this
        rw [← this]
        congr 2
        omega
    refine ⟨loop, ?_⟩
    intro hhead
    simp only [Derivation.headNotBegin, bne_iff_ne, ne_eq] at hhead
    have hres : (Derivation.nonTerminal label child rest).results lm
        (specRuleScore lm.m_ngram) unused
        = ((summary lm.m_ngram false (child.ids lm.m_lmIdLookup)).state,
            (summary lm.m_ngram false (child.ids lm.m_lmIdLookup)).prob)
          :: rest.results lm (specRuleScore lm.m_ngram) unused := by
      simp only [Derivation.results, hc]
    unfold Derivation.evaluate
    rw [hres]
    simp only [evaluateRule, EvaluateChart, EvaluateChartRun, Derivation.targetPhrase, hhead,
      hlabel, if_true, if_false, List.getD_cons_zero]
    rw [BeginNonTerminal_summary lm.m_ngram (specRuleScore lm.m_ngram).start
      (summary lm.m_ngram false (child.ids lm.m_lmIdLookup))]
    rw [(ihr hrest).1 _ 1 false _ (by intro i; simp [Nat.add_comm 1 i])]
    simp [Derivation.ids, Derivation.flatten, Finish_summary]

theorem flatten_of_wellFormed (bos : Nat) (d : Derivation) (wf : d.wellFormed bos = true) :
    ∀ w ∈ d.flatten, w.isNonTerminal = false ∧ w.factor ≠ bos := by
  induction d with
  | done => simp [Derivation.flatten]
  | terminal word rest ih =>
    simp only [Derivation.wellFormed, Bool.and_eq_true, Bool.not_eq_true', bne_iff_ne,
      ne_eq] at wf
    intro w hw
    simp only [Derivation.flatten, List.mem_cons] at hw
    rcases hw with rfl | hw
    · exact wf.1
    · exact ih wf.2 w hw
  | nonTerminal label child rest ihc ihr =>
    simp only [Derivation.wellFormed, Bool.and_eq_true] at wf
    intro w hw
    simp only [Derivation.flatten, List.mem_append] at hw
    rcases hw with hw | hw
    · exact ihc wf.1.2 w hw
    · exact ihr wf.2 w hw

theorem CalcScoreLoop_fullScore {St S : Type} [AddCommGroup S] (lm : LanguageModelKen St S)
    (hT : ∀ s, lm.TransformLMScore s = s) (contextOf : St → List Nat)
    (coh : lm.m_ngram.Coherent contextOf) (ngramBoundary : Nat) (words : List Word)
    (hw : ∀ w ∈ words, w.isNonTerminal = false) (position : Nat) (state0 : St)
    (acc : CalcScoreOut S) (context : List Nat)
    (hc : contextOf state0 = context.take (lm.m_ngram.Order - 1)) :
    (CalcScoreLoop lm ngramBoundary words position state0 acc).fullScore
      = acc.fullScore + linearRaw lm.m_ngram context (words.map (TranslateID lm.m_lmIdLookup)) := by
  induction words generalizing position state0 acc context with
  | nil => simp [CalcScoreLoop, linearRaw]
  | cons word rest ih =>
    have hword : word.isNonTerminal = false := hw word (List.mem_cons_self _ _)
    have hrest : ∀ w ∈ rest, w.isNonTerminal = false :=
      fun w h => hw w (List.mem_cons_of_mem _ h)
    obtain ⟨_, _, hscore⟩ := coh
    simp only [CalcScoreLoop, hword, Bool.false_eq_true, if_false, List.map_cons, linearRaw]
    rw [ih hrest _ _ _ (TranslateID lm.m_lmIdLookup word :: context)]
    · simp only [hT, (hscore _ _).1, hc, add_assoc]
    · rw [(hscore _ _).2, hc, take_cons_take]

/-- Exactness of the modelled rule scorer in the raw score domain.  For a model of order at
least two whose states are coherent with its context scoring, and a derivation in which
the sentence-begin factor occurs at most as the first symbol of the top rule, the total
that composing boundary states with `EvaluateChart` yields is the total `CalcScore` gives
for the flattened word sequence when `TransformLMScore` is the identity. -/
theorem chart_total_eq_untransformed_linear_total {St S : Type} [AddCommGroup S]
    (lm : LanguageModelKen St S) (h2 : 2 ≤ lm.m_ngram.Order) (contextOf : St → List Nat)
    (coh : lm.m_ngram.Coherent contextOf) (unused : ChartState × S) (d : Derivation)
    (wf : d.sentenceWellFormed lm.m_beginSentenceFactor = true) (prior : CalcScoreOut S) :
    (d.evaluate lm (specRuleScore lm.m_ngram) unused).2
      = (CalcScore { lm with TransformLMScore := fun score => score } d.flatten prior).fullScore := by
  have hn : lm.m_ngram.Order - 1 = (lm.m_ngram.Order - 2) + 1 := by omega
  have general : ∀ d : Derivation, d.wellFormed lm.m_beginSentenceFactor = true →
      (d.evaluate lm (specRuleScore lm.m_ngram) unused).2
        = (CalcScore { lm with TransformLMScore := fun score => score } d.flatten
            prior).fullScore := by
    intro d wf
    have hflat := flatten_of_wellFormed _ d wf
    rw [(Derivation_chart_invariant lm h2 unused d wf).2
      (headNotBegin_of_wellFormed _ d wf)]
    simp only [summary, Derivation.ids, Bool.false_eq_true, if_false]
    cases hd : d.flatten with
    | nil => simp [CalcScore, linearRaw]
    | cons word0 rest =>
      rw [hd] at hflat
      have h0 : ¬ lm.m_beginSentenceFactor = word0.factor :=
        fun e => (hflat word0 (List.mem_cons_self _ _)).2 e.symm
      simp only [CalcScore, h0, if_false]
      rw [CalcScoreLoop_fullScore { lm with TransformLMScore := fun score => score }
        (fun _ => rfl) contextOf coh _ _ (fun w h => (hflat w h).1) _ _ _ []
        (by simpa using coh.1)]
      simp
  cases d with
  | done => exact general _ wf
  | nonTerminal label child rest => exact general _ wf
  | terminal word rest =>
    by_cases hb : word.factor = lm.m_beginSentenceFactor
    · simp only [Derivation.sentenceWellFormed, Bool.and_eq_true, Bool.not_eq_true'] at wf
      obtain ⟨hword, hrest⟩ := wf
      have hflat := flatten_of_wellFormed _ rest hrest
      have run := (Derivation_chart_invariant lm h2 unused rest hrest).1
        { targetPhrase := (Derivation.terminal word rest).targetPhrase
          nonTermIndexMap := fun p => p
          prevHypo := fun i =>
            ((Derivation.terminal word rest).results lm (specRuleScore lm.m_ngram)
              unused).getD i unused }
        1 true [] (by intro i; simp [Derivation.results, Nat.add_comm 1 i])
      rw [← summary_BeginSentence lm.m_ngram h2] at run
      simp only [Derivation.evaluate, evaluateRule, EvaluateChart, EvaluateChartRun,
        Derivation.targetPhrase, hb, if_true]
      simp only [Derivation.targetPhrase] at run
      rw [run]
      simp only [Finish_summary, summary, Derivation.flatten, CalcScore, hb, if_true,
        List.nil_append]
      rw [CalcScoreLoop_fullScore { lm with TransformLMScore := fun score => score }
        (fun _ => rfl) contextOf coh _ _ (fun w h => (hflat w h).1) _ _ _
        [lm.m_ngram.BeginSentence] (by rw [coh.2.1, hn]; simp)]
      simp [Derivation.ids]
    · have wf2 : (Derivation.terminal word rest).wellFormed lm.m_beginSentenceFactor
          = true := by
        simp only [Derivation.sentenceWellFormed, Bool.and_eq_true] at wf
        simp only [Derivation.wellFormed, Bool.and_eq_true, bne_iff_ne, ne_eq]
        exact ⟨⟨wf.1, hb⟩, wf.2⟩
      exact general _ wf2

theorem exampleModel_coherent : exampleModel.Coherent (fun st => st.take 2) := by
  refine ⟨rfl, rfl, ?_⟩
  intro st word
  refine ⟨?_, ?_⟩
  · simp [exampleModel, List.take_take]
  · show ((word :: st).take 2).take 2 = (word :: st.take 2).take 2
    rw [take_cons_take, List.take_take]
    simp

/-- The exactness theorem at the example derivation: both totals are `-66`. -/
theorem chart_total_eq_untransformed_linear_total_witness :
    exampleDerivation.flatten = exampleFlat
    ∧ (exampleDerivation.evaluate exampleLM exampleRuleScore
        ({ left := [], full := false, right := [] }, 0)).2 = -66
    ∧ (CalcScore { exampleLM with TransformLMScore := fun score => score }
        exampleDerivation.flatten { fullScore := 0, ngramScore := 0, oovCount := 0 }).fullScore
        = -66 := by
  have h := chart_total_eq_untransformed_linear_total exampleLM (by decide)
    (fun st => st.take 2) exampleModel_coherent ({ left := [], full := false, right := [] }, 0)
    exampleDerivation (by decide) { fullScore := 0, ngramScore := 0, oovCount := 0 }
  refine ⟨by decide, ?_, by decide⟩
  exact h.trans (by decide)

/-- C8 at the failing input (chart total against linear total).  For `the cat` followed by
a non-terminal filled with `sat down` under the order-3 example model, composing the two
boundary states with `EvaluateChart` gives the total `-66`, which is the sum of the raw
model scores of `the cat sat down` scored as one sequence, whereas linear-mode scoring of
that sequence by `CalcScore` gives the transformed total `-132`. -/
theorem C8_chart_total_not_linear_total :
    (EvaluateChart exampleLM exampleRuleScore exampleInnerRule { lm := 0, oov := 0 }).2.lm = -17
    ∧ (EvaluateChart exampleLM exampleRuleScore exampleOuterRule { lm := 0, oov := 0 }).2.lm
        = -66
    ∧ (CalcScore { exampleLM with TransformLMScore := fun score => score } exampleFlat
        { fullScore := 0, ngramScore := 0, oovCount := 0 }).fullScore = -66
    ∧ (CalcScore exampleLM exampleFlat
        { fullScore := 0, ngramScore := 0, oovCount := 0 }).fullScore = -132 := by
  decide

/-! ### Symbol bindings and chart entries -/

theorem SymbolBindElement_eq_iff (a b : SymbolBindElement) :
    a.eq b = true ↔ a.key = b.key := by
  simp [SymbolBindElement.eq, SymbolBindElement.key, Prod.ext_iff]

theorem vectorEq_iff (a b : List SymbolBindElement) :
    vectorEq a b = true ↔ a.map SymbolBindElement.key = b.map SymbolBindElement.key := by
  induction a generalizing b with
  | nil =>
    cases b with
    | nil => simp [vectorEq]
    | cons y ys => simp [vectorEq]
  | cons x xs ih =>
    cases b with
    | nil => simp [vectorEq]
    | cons y ys =>
      have h := ih ys
      simp only [vectorEq, Bool.and_eq_true, beq_iff_eq, List.all_eq_true] at h
      simp only [vectorEq, List.length_cons, List.zip_cons_cons, List.all_cons,
        Bool.and_eq_true, beq_iff_eq, List.all_eq_true, List.map_cons, List.cons.injEq,
        Nat.add_right_cancel_iff]
      rw [← h, ← SymbolBindElement_eq_iff]
      tauto

theorem map_key_eq_iff (a b : List SymbolBindElement) :
    a.map SymbolBindElement.key = b.map SymbolBindElement.key
      ↔ a.length = b.length
        ∧ ∀ (i : Nat) (ha : i < a.length) (hb : i < b.length),
            a[i].range = b[i].range ∧ a[i].word = b[i].word := by
  induction a generalizing b with
  | nil =>
    cases b with
    | nil => simp
    | cons y ys => simp
  | cons x xs ih =>
    cases b with
    | nil => simp
    | cons y ys =>
      simp only [List.map_cons, List.cons.injEq, ih ys, List.length_cons,
        Nat.add_right_cancel_iff]
      constructor
      · rintro ⟨hk, hl, hrest⟩
        refine ⟨hl, ?_⟩
        intro i ha hb
        cases i with
        | zero =>
          simp only [SymbolBindElement.key, Prod.mk.injEq] at hk
          simpa using hk
        | succ i =>
          simpa using hrest i (by simpa using ha) (by simpa using hb)
      · rintro ⟨hl, hall⟩
        refine ⟨?_, hl, ?_⟩
        · have h0 := hall 0 (by simp) (by simp)
          simpa [SymbolBindElement.key] using h0
        · intro i ha hb
          simpa using hall (i + 1) (by simpa using ha) (by simpa using hb)

/-- C9 (binding-key law).  Two `SymbolBind` values compare equal iff their element
sequences have the same length and agree pairwise on (range, word).  Hence the comparison
is reflexive, symmetric and transitive, and its result does not change when a binding is
replaced by one with the same (range, word) sequence but other hypothesis sets and another
`numNT`; two bindings with identical (range, word) sequences compare equal whatever their
hypothesis sets are. -/
theorem C9_binding_key_law (a b c : SymbolBind) :
    (a.eq b = true
      ↔ a.coll.length = b.coll.length
        ∧ ∀ (i : Nat) (ha : i < a.coll.length) (hb : i < b.coll.length),
            a.coll[i].range = b.coll[i].range ∧ a.coll[i].word = b.coll[i].word)
    ∧ a.eq a = true
    ∧ a.eq b = b.eq a
    ∧ (a.eq b = true → b.eq c = true → a.eq c = true)
    ∧ (∀ a2 : SymbolBind,
        a2.coll.map SymbolBindElement.key = a.coll.map SymbolBindElement.key →
          a2.eq b = a.eq b ∧ b.eq a2 = b.eq a)
    ∧ (∀ (hyposOf : SymbolBindElement → Nat) (n : Nat),
        SymbolBind.eq
          { coll := a.coll.map (fun e => { e with hypos := hyposOf e }), numNT := n } a
          = true) := by
  have key : ∀ x y : SymbolBind, x.eq y = true
      ↔ x.coll.map SymbolBindElement.key = y.coll.map SymbolBindElement.key :=
    fun x y => vectorEq_iff x.coll y.coll
  have congr : ∀ x y z : SymbolBind,
      x.coll.map SymbolBindElement.key = y.coll.map SymbolBindElement.key →
        x.eq z = y.eq z ∧ z.eq x = z.eq y := by
    intro x y z hxy
    constructor
    · rw [Bool.eq_iff_iff, key, key, hxy]
    · rw [Bool.eq_iff_iff, key, key, hxy]
  refine ⟨?_, ?_, ?_, ?_, ?_, ?_⟩
  · rw [key, map_key_eq_iff]
  · rw [key]
  · rw [Bool.eq_iff_iff, key, key]
    exact eq_comm
  · intro hab hbc
    rw [key] at hab hbc ⊢
    exact hab.trans hbc
  · intro a2 h
    exact congr a2 a b h
  · intro hyposOf n
    rw [key]
    simp [List.map_map, Function.comp_def, SymbolBindElement.key]

theorem MemPool_place_deref_new (pool : MemPool) (obj : SymbolBind) :
    (pool.place obj).1.deref (pool.place obj).2 = some obj := by
  simp [MemPool.place, MemPool.deref]

theorem MemPool_place_deref_old (pool : MemPool) (obj sb : SymbolBind) (p : Nat)
    (h : pool.deref p = some sb) : (pool.place obj).1.deref p = some sb := by
  simp only [MemPool.deref, MemPool.place] at h ⊢
  have hp : p < pool.objects.length := by
    by_contra hn
    rw [List.getElem?_eq_none (by omega)] at h
    cases h
  rw [List.getElem?_append_left hp]
  exact h

theorem MemPool_deref_lt (pool : MemPool) (sb : SymbolBind) (p : Nat)
    (h : pool.deref p = some sb) : p < pool.objects.length := by
  simp only [MemPool.deref] at h
  by_contra hn
  rw [List.getElem?_eq_none (by omega)] at h
  cases h

/-- C10 (chart entries).  An `ActiveChartEntry` created fresh owns a `SymbolBind` with an
empty element sequence and `numNT = 0`.  An `ActiveChartEntry` created from a parent entry
(whose pointer is valid) owns a new `SymbolBind`, at an address different from the
parent's, whose element sequence and `numNT` equal the parent's, so that it compares equal
to the parent's binding; the parent's binding and every other object of the arena are
left unchanged. -/
theorem C10_ActiveChartEntry_constructors (pool : MemPool) (prevEntry : ActiveChartEntry)
    (prevBinds : SymbolBind) (h : pool.deref prevEntry.symbolBinds = some prevBinds) :
    (ActiveChartEntry.create pool).1.deref (ActiveChartEntry.create pool).2.symbolBinds
      = some { coll := [], numNT := 0 }
    ∧ ∃ (pool2 : MemPool) (entry : ActiveChartEntry) (newBinds : SymbolBind),
        ActiveChartEntry.createFrom pool prevEntry = some (pool2, entry)
        ∧ pool2.deref entry.symbolBinds = some newBinds
        ∧ newBinds.coll = prevBinds.coll
        ∧ newBinds.numNT = prevBinds.numNT
        ∧ newBinds.eq prevBinds = true
        ∧ entry.symbolBinds ≠ prevEntry.symbolBinds
        ∧ pool2.deref prevEntry.symbolBinds = some prevBinds
        ∧ ∀ (p : Nat) (sb : SymbolBind), pool.deref p = some sb → pool2.deref p = some sb := by
  refine ⟨MemPool_place_deref_new pool SymbolBind.create, ?_⟩
  refine ⟨(pool.place (SymbolBind.createCopy prevBinds)).1,
    { symbolBinds := (pool.place (SymbolBind.createCopy prevBinds)).2 },
    SymbolBind.createCopy prevBinds, ?_, ?_, rfl, rfl, ?_, ?_, ?_, ?_⟩
  · simp [ActiveChartEntry.createFrom, h]
  · exact MemPool_place_deref_new pool _
  · exact (vectorEq_iff _ _).mpr rfl
  · have hlt := MemPool_deref_lt pool prevBinds _ h
    simp only [MemPool.place]
    omega
  · exact MemPool_place_deref_old pool _ prevBinds _ h
  · intro p sb hp
    exact MemPool_place_deref_old pool _ sb p hp

/-- Witness of C10: copying the entry that points to `exampleBinds` in the example arena. -/
theorem C10_ActiveChartEntry_constructors_witness :
    examplePool.deref 1 = some exampleBinds
    ∧ ∃ (pool2 : MemPool) (entry : ActiveChartEntry) (newBinds : SymbolBind),
        ActiveChartEntry.createFrom examplePool { symbolBinds := 1 } = some (pool2, entry)
        ∧ pool2.deref entry.symbolBinds = some newBinds
        ∧ newBinds.coll = exampleBinds.coll
        ∧ newBinds.numNT = exampleBinds.numNT
        ∧ newBinds.eq exampleBinds = true
        ∧ entry.symbolBinds ≠ 1
        ∧ pool2.deref 1 = some exampleBinds
        ∧ ∀ (p : Nat) (sb : SymbolBind),
            examplePool.deref p = some sb → pool2.deref p = some sb :=
  ⟨rfl, (C10_ActiveChartEntry_constructors examplePool { symbolBinds := 1 } exampleBinds rfl).2⟩


/-! ### Comparison of language-model states -/

theorem wordBytes_length (bigEndian : Bool) (w : Nat) : (wordBytes bigEndian w).length = 4 := by
  cases bigEndian <;> rfl

theorem wordBytes_eq_iff (bigEndian : Bool) (v w : Nat) :
    wordBytes bigEndian v = wordBytes bigEndian w ↔ v % 4294967296 = w % 4294967296 := by
  cases bigEndian
  · simp only [wordBytes, Bool.false_eq_true, if_false, List.cons.injEq, and_true]
    omega
  · simp only [wordBytes, if_true, List.cons.injEq, and_true]
    omega

theorem bytesFrom_length (bigEndian : Bool) (words : Nat → Nat) (i n : Nat) :
    (bytesFrom bigEndian words i n).length = 4 * n := by
  induction n generalizing i with
  | zero => rfl
  | succ n ih =>
    simp only [bytesFrom, List.length_append, wordBytes_length, ih]
    omega

theorem bytesFrom_eq_iff (bigEndian : Bool) (a b : Nat → Nat) (i n : Nat) :
    bytesFrom bigEndian a i n = bytesFrom bigEndian b i n
      ↔ ∀ k, k < n → a (i + k) % 4294967296 = b (i + k) % 4294967296 := by
  induction n generalizing i with
  | zero => simp [bytesFrom]
  | succ n ih =>
    simp only [bytesFrom]
    have split : wordBytes bigEndian (a i) ++ bytesFrom bigEndian a (i + 1) n
        = wordBytes bigEndian (b i) ++ bytesFrom bigEndian b (i + 1) n
        ↔ wordBytes bigEndian (a i) = wordBytes bigEndian (b i)
          ∧ bytesFrom bigEndian a (i + 1) n = bytesFrom bigEndian b (i + 1) n := by
      constructor
      · intro h
        exact List.append_inj h (by simp [wordBytes_length])
      · rintro ⟨h1, h2⟩
        rw [h1, h2]
    rw [split, wordBytes_eq_iff, ih]
    constructor
    · rintro ⟨h0, hrest⟩ k hk
      cases k with
      | zero => simpa using h0
      | succ k =>
        have := hrest k (by omega)
        rwa [show i + 1 + k = i + (k + 1) by omega] at this
    · intro h
      refine ⟨by simpa using h 0 (by omega), ?_⟩
      intro k hk
      have := h (k + 1) (by omega)
      rwa [show i + (k + 1) = i + 1 + k by omega] at this

theorem memcmpReference_eq_zero (p q : List Nat) (h : p.length = q.length) :
    memcmpReference p q = 0 ↔ p = q := by
  induction p generalizing q with
  | nil =>
    cases q with
    | nil => simp [memcmpReference]
    | cons y ys => simp at h
  | cons x xs ih =>
    cases q with
    | nil => simp at h
    | cons y ys =>
      simp only [List.length_cons, Nat.add_right_cancel_iff] at h
      by_cases hxy : x = y
      · simp [memcmpReference, hxy, ih ys h]
      · simp only [memcmpReference, hxy, if_false, List.cons.injEq, false_and, iff_false]
        omega

theorem memcmpReference_swap (p q : List Nat) :
    memcmpReference q p = - memcmpReference p q := by
  induction p generalizing q with
  | nil => cases q <;> simp [memcmpReference]
  | cons x xs ih =>
    cases q with
    | nil => simp [memcmpReference]
    | cons y ys =>
      by_cases hxy : x = y
      · simp [memcmpReference, hxy, ih ys]
      · have hyx : ¬ y = x := fun e => hxy e.symm
        simp only [memcmpReference, hxy, hyx, if_false]
        omega

theorem memcmpReference_trans (p q r : List Nat) (hpq : p.length = q.length)
    (hqr : q.length = r.length) (h1 : memcmpReference p q ≤ 0)
    (h2 : memcmpReference q r ≤ 0) : memcmpReference p r ≤ 0 := by
  induction p generalizing q r with
  | nil => cases r <;> simp [memcmpReference]
  | cons x xs ih =>
    cases q with
    | nil => simp at hpq
    | cons y ys =>
      cases r with
      | nil => simp at hqr
      | cons z zs =>
        simp only [List.length_cons, Nat.add_right_cancel_iff] at hpq hqr
        simp only [memcmpReference] at h1 h2 ⊢
        by_cases hxy : x = y
        · subst hxy
          by_cases hxz : x = z
          · subst hxz
            simp only [if_true] at h1 h2 ⊢
            exact ih ys zs hpq hqr h1 h2
          · simp only [hxz, if_false] at h2 ⊢
            exact h2
        · simp only [hxy, if_false] at h1
          by_cases hyz : y = z
          · subst hyz
            simp only [hxy, if_false]
            exact h1
          · simp only [hyz, if_false] at h2
            by_cases hxz : x = z
            · omega
            · simp only [hxz, if_false]
              omega

theorem sign_nonpos_iff (x : Int) : Int.sign x ≤ 0 ↔ x ≤ 0 := by
  rcases Int.lt_trichotomy x 0 with h | h | h
  · simp [Int.sign_eq_neg_one_iff_neg.mpr h, Int.le_of_lt h]
  · simp [h]
  · simp [Int.sign_eq_one_iff_pos.mpr h]
    omega

theorem nonpos_of_sign_eq (x y : Int) (h : Int.sign x = Int.sign y) : x ≤ 0 ↔ y ≤ 0 := by
  rw [← sign_nonpos_iff x, ← sign_nonpos_iff y, h]

theorem eq_zero_of_sign_eq (x y : Int) (h : Int.sign x = Int.sign y) : x = 0 ↔ y = 0 := by
  rw [← Int.sign_eq_zero_iff_zero, ← @Int.sign_eq_zero_iff_zero y, h]

theorem Compare_of_lt (memcmp : List Nat → List Nat → Int) (bigEndian : Bool)
    (a b : KenLMState) (h : a.state.length < b.state.length) :
    KenLMState.Compare memcmp bigEndian a b = -1 := by
  simp [KenLMState.Compare, h]

theorem Compare_of_gt (memcmp : List Nat → List Nat → Int) (bigEndian : Bool)
    (a b : KenLMState) (h : b.state.length < a.state.length) :
    KenLMState.Compare memcmp bigEndian a b = 1 := by
  have h2 : ¬ a.state.length < b.state.length := by omega
  simp [KenLMState.Compare, h, h2]

theorem Compare_of_eq (memcmp : List Nat → List Nat → Int) (bigEndian : Bool)
    (a b : KenLMState) (h : a.state.length = b.state.length) :
    KenLMState.Compare memcmp bigEndian a b
      = memcmp (bytesFrom bigEndian a.state.words 0 a.state.length)
          (bytesFrom bigEndian b.state.words 0 a.state.length) := by
  simp [KenLMState.Compare, h]

theorem Compare_nonpos_length (memcmp : List Nat → List Nat → Int) (bigEndian : Bool)
    (a b : KenLMState) (h : KenLMState.Compare memcmp bigEndian a b ≤ 0) :
    a.state.length ≤ b.state.length := by
  by_contra hn
  rw [Compare_of_gt memcmp bigEndian a b (by omega)] at h
  omega

/-- C11 (state comparison).  Provided `memcmp` has the sign the C standard gives it,
`KenLMState::Compare` is a three-way total ordering: `Compare(a,b) = 0` iff `a` and `b`
have the same context length and the same first `length` context words (as 32-bit values);
the sign of `Compare(b,a)` is the opposite of the sign of `Compare(a,b)`, so that one of the
two is at most zero; `Compare(a,b) <= 0` and `Compare(b,c) <= 0` give `Compare(a,c) <= 0`;
and a state with a shorter context comes before one with a longer context, whatever the
words are. -/
theorem C11_KenLMState_Compare (memcmp : List Nat → List Nat → Int) (bigEndian : Bool)
    (a b c : KenLMState)
    (hmemcmp : ∀ p q : List Nat, p.length = q.length →
      Int.sign (memcmp p q) = Int.sign (memcmpReference p q)) :
    (KenLMState.Compare memcmp bigEndian a b = 0
      ↔ a.state.length = b.state.length
        ∧ ∀ i, i < a.state.length →
            a.state.words i % 4294967296 = b.state.words i % 4294967296)
    ∧ ((∀ i, a.state.words i < 4294967296 ∧ b.state.words i < 4294967296) →
        (KenLMState.Compare memcmp bigEndian a b = 0
          ↔ a.state.length = b.state.length
            ∧ ∀ i, i < a.state.length → a.state.words i = b.state.words i))
    ∧ Int.sign (KenLMState.Compare memcmp bigEndian b a)
        = - Int.sign (KenLMState.Compare memcmp bigEndian a b)
    ∧ (KenLMState.Compare memcmp bigEndian a b ≤ 0
        ∨ KenLMState.Compare memcmp bigEndian b a ≤ 0)
    ∧ (KenLMState.Compare memcmp bigEndian a b ≤ 0 →
        KenLMState.Compare memcmp bigEndian b c ≤ 0 →
          KenLMState.Compare memcmp bigEndian a c ≤ 0)
    ∧ (a.state.length < b.state.length → KenLMState.Compare memcmp bigEndian a b < 0)
    ∧ (b.state.length < a.state.length → 0 < KenLMState.Compare memcmp bigEndian a b) := by
  have hlen : ∀ (x y : KenLMState) (n : Nat),
      (bytesFrom bigEndian x.state.words 0 n).length
        = (bytesFrom bigEndian y.state.words 0 n).length := by
    intro x y n
    rw [bytesFrom_length, bytesFrom_length]
  have zero_iff : KenLMState.Compare memcmp bigEndian a b = 0
      ↔ a.state.length = b.state.length
        ∧ ∀ i, i < a.state.length →
            a.state.words i % 4294967296 = b.state.words i % 4294967296 := by
    rcases Nat.lt_trichotomy a.state.length b.state.length with h | h | h
    · rw [Compare_of_lt memcmp bigEndian a b h]
      constructor
      · intro h0
        omega
      · rintro ⟨h0, _⟩
        omega
    · rw [Compare_of_eq memcmp bigEndian a b h,
        eq_zero_of_sign_eq _ _ (hmemcmp _ _ (hlen a b _)),
        memcmpReference_eq_zero _ _ (hlen a b _), bytesFrom_eq_iff]
      simp [h]
    · rw [Compare_of_gt memcmp bigEndian a b h]
      constructor
      · intro h0
        omega
      · rintro ⟨h0, _⟩
        omega
  have sign_swap : Int.sign (KenLMState.Compare memcmp bigEndian b a)
      = - Int.sign (KenLMState.Compare memcmp bigEndian a b) := by
    rcases Nat.lt_trichotomy a.state.length b.state.length with h | h | h
    · rw [Compare_of_lt memcmp bigEndian a b h, Compare_of_gt memcmp bigEndian b a h]
      rfl
    · rw [Compare_of_eq memcmp bigEndian a b h, Compare_of_eq memcmp bigEndian b a h.symm,
        ← h, hmemcmp _ _ (hlen b a _), hmemcmp _ _ (hlen a b _), memcmpReference_swap,
        Int.sign_neg]
    · rw [Compare_of_gt memcmp bigEndian a b h, Compare_of_lt memcmp bigEndian b a h]
      rfl
  refine ⟨zero_iff, ?_, sign_swap, ?_, ?_, ?_, ?_⟩
  · intro hbound
    rw [zero_iff]
    constructor
    · rintro ⟨hl, hw⟩
      refine ⟨hl, fun i hi => ?_⟩
      have := hw i hi
      rwa [Nat.mod_eq_of_lt (hbound i).1, Nat.mod_eq_of_lt (hbound i).2] at this
    · rintro ⟨hl, hw⟩
      exact ⟨hl, fun i hi => by rw [hw i hi]⟩
  · by_cases h : KenLMState.Compare memcmp bigEndian a b ≤ 0
    · exact Or.inl h
    · right
      rw [← sign_nonpos_iff, sign_swap]
      have hpos : 0 < KenLMState.Compare memcmp bigEndian a b := by omega
      rw [Int.sign_eq_one_iff_pos.mpr hpos]
      decide
  · intro hab hbc
    have h1 := Compare_nonpos_length memcmp bigEndian a b hab
    have h2 := Compare_nonpos_length memcmp bigEndian b c hbc
    rcases Nat.lt_or_ge a.state.length c.state.length with h | h
    · rw [Compare_of_lt memcmp bigEndian a c h]
      decide
    · have e1 : a.state.length = b.state.length := by omega
      have e2 : b.state.length = c.state.length := by omega
      rw [Compare_of_eq memcmp bigEndian a b e1,
        nonpos_of_sign_eq _ _ (hmemcmp _ _ (hlen a b _))] at hab
      rw [Compare_of_eq memcmp bigEndian b c e2, ← e1,
        nonpos_of_sign_eq _ _ (hmemcmp _ _ (hlen b c _))] at hbc
      rw [Compare_of_eq memcmp bigEndian a c (e1.trans e2),
        nonpos_of_sign_eq _ _ (hmemcmp _ _ (hlen a c _))]
      exact memcmpReference_trans _ _ _ (hlen a b _) (hlen b c _) hab hbc
  · intro h
    rw [Compare_of_lt memcmp bigEndian a b h]
    decide
  · intro h
    rw [Compare_of_gt memcmp bigEndian a b h]
    decide

/-- Witness of C11: the example states `4 3`, `4 5` and `1 1 1` under the reference
`memcmp` on a little-endian machine. -/
theorem C11_KenLMState_Compare_witness :
    (∀ p q : List Nat, p.length = q.length →
      Int.sign (memcmpReference p q) = Int.sign (memcmpReference p q))
    ∧ KenLMState.Compare memcmpReference false exampleStateA exampleStateB = -2
    ∧ KenLMState.Compare memcmpReference false exampleStateB exampleStateC = -1
    ∧ (KenLMState.Compare memcmpReference false exampleStateA exampleStateB ≤ 0 →
        KenLMState.Compare memcmpReference false exampleStateB exampleStateC ≤ 0 →
          KenLMState.Compare memcmpReference false exampleStateA exampleStateC ≤ 0) :=
  ⟨fun _ _ _ => rfl, by decide, by decide,
    (C11_KenLMState_Compare memcmpReference false exampleStateA exampleStateB exampleStateC
      (fun _ _ _ => rfl)).2.2.2.2.1⟩

/-! ### Constrained decoding against reference translations -/

theorem searchLoop_stop (find : Phrase → Phrase → Int → Nat) (outputPhrase : Phrase)
    (m_maxUnknowns : Int) (refs : List Phrase) (searchPos size : Nat)
    (h : searchPos ≠ NOT_FOUND) :
    searchLoop find outputPhrase m_maxUnknowns refs (searchPos, size) = (searchPos, size) := by
  cases refs with
  | nil => rfl
  | cons ref rest => simp [searchLoop, h]

theorem searchLoop_found (find : Phrase → Phrase → Int → Nat) (outputPhrase : Phrase)
    (m_maxUnknowns : Int) (refs : List Phrase) (size : Nat) (ref : Phrase)
    (h : firstContaining find outputPhrase m_maxUnknowns refs = some ref) :
    searchLoop find outputPhrase m_maxUnknowns refs (NOT_FOUND, size)
      = (find ref outputPhrase m_maxUnknowns, ref.length) := by
  induction refs generalizing size with
  | nil => simp [firstContaining] at h
  | cons r rest ih =>
    simp only [firstContaining, List.find?_cons] at h
    by_cases hr : find r outputPhrase m_maxUnknowns = NOT_FOUND
    · simp only [hr, ne_eq, not_true_eq_false, decide_False] at h
      simp only [searchLoop, if_true, hr]
      exact ih _ h
    · simp only [hr, ne_eq, not_false_eq_true, decide_True, Option.some.injEq] at h
      subst h
      simp only [searchLoop, if_true]
      exact searchLoop_stop find outputPhrase m_maxUnknowns rest _ _ hr

theorem searchLoop_not_found (find : Phrase → Phrase → Int → Nat) (outputPhrase : Phrase)
    (m_maxUnknowns : Int) (refs : List Phrase) (size : Nat)
    (h : firstContaining find outputPhrase m_maxUnknowns refs = none) :
    (searchLoop find outputPhrase m_maxUnknowns refs (NOT_FOUND, size)).1 = NOT_FOUND := by
  induction refs generalizing size with
  | nil => rfl
  | cons r rest ih =>
    simp only [firstContaining, List.find?_cons] at h
    by_cases hr : find r outputPhrase m_maxUnknowns = NOT_FOUND
    · simp only [hr, ne_eq, not_true_eq_false, decide_False] at h
      simp only [searchLoop, if_true, hr]
      exact ih _ h
    · simp [hr] at h

theorem searchLoop_isFound (find : Phrase → Phrase → Int → Nat) (outputPhrase : Phrase)
    (m_maxUnknowns : Int) (refs : List Phrase) :
    decide ((searchLoop find outputPhrase m_maxUnknowns refs (NOT_FOUND, 0)).1 ≠ NOT_FOUND)
      = isFound find outputPhrase m_maxUnknowns refs := by
  unfold isFound
  cases h : firstContaining find outputPhrase m_maxUnknowns refs with
  | none => simp [searchLoop_not_found find outputPhrase m_maxUnknowns refs 0 h]
  | some ref =>
    have hmem := List.find?_some h
    simp only [decide_eq_true_eq] at hmem
    simp [searchLoop_found find outputPhrase m_maxUnknowns refs 0 ref h, hmem]

theorem searchLoop_isExactMatch (find : Phrase → Phrase → Int → Nat) (outputPhrase : Phrase)
    (m_maxUnknowns : Int) (refs : List Phrase) :
    (decide ((searchLoop find outputPhrase m_maxUnknowns refs (NOT_FOUND, 0)).1 = 0)
      && decide ((searchLoop find outputPhrase m_maxUnknowns refs (NOT_FOUND, 0)).2
          = outputPhrase.length))
      = isExactMatch find outputPhrase m_maxUnknowns refs := by
  unfold isExactMatch
  cases h : firstContaining find outputPhrase m_maxUnknowns refs with
  | none =>
    have h0 : ¬ NOT_FOUND = 0 := by decide
    simp [searchLoop_not_found find outputPhrase m_maxUnknowns refs 0 h, h0]
  | some ref => simp [searchLoop_found find outputPhrase m_maxUnknowns refs 0 ref h]

theorem score_eq_tableScore {S : Type} [Zero S] [One S] [Neg S] (infinity : S)
    (completed negate soft : Bool) (searchPos size outputSize : Nat) :
    (if completed then
        if !negate then
          if (decide (searchPos = 0) && decide (size = outputSize)) then 0
          else -(if soft then 1 else infinity)
        else
          if !(decide (searchPos = 0) && decide (size = outputSize)) then 0
          else -(if soft then 1 else infinity)
      else if negate then 0
      else if searchPos ≠ NOT_FOUND then 0 else -(if soft then 1 else infinity))
      = tableScore infinity completed (decide (searchPos ≠ NOT_FOUND))
          (decide (searchPos = 0) && decide (size = outputSize)) negate soft := by
  unfold tableScore penalty
  cases completed <;> cases negate <;> cases soft <;>
    cases (decide (searchPos = 0) && decide (size = outputSize)) <;>
    by_cases h : searchPos = NOT_FOUND <;> simp [h]

/-- C12 (missing reference).  `GetConstraint` raises the exception `Couldn't find reference`
carrying the translation id of the hypothesis's source sentence iff the constraint map has
no entry for that id, and returns exactly the list of reference phrases stored under the id
when there is one.  When the entry is missing, both `EvaluateWhenApplied` overloads end
with that exception and leave the accumulator as it was; so they do for sentence 7 of the
example, which has references for sentence 0 only. -/
theorem C12_GetConstraint_missing_reference {H S : Type} [Zero S] [One S] [Neg S] [Add S]
    (translationId : H → Int) (constraints : Int → Option (List Phrase)) (h : H)
    (find : Phrase → Phrase → Int → Nat) (infinity : S) (ff : ConstrainedDecodingDeseg)
    (hypo : DesegHypothesis) (chartHypo : DesegChartHypothesis) (accumulator : S) :
    (GetConstraint translationId constraints h
        = .error { text := "Couldn't find reference ", id := translationId h }
      ↔ constraints (translationId h) = none)
    ∧ (∀ e : UtilException, GetConstraint translationId constraints h = .error e →
        e.id = translationId h ∧ constraints (translationId h) = none)
    ∧ (∀ refs : List Phrase, GetConstraint translationId constraints h = .ok refs
        ↔ constraints (translationId h) = some refs)
    ∧ (ff.m_constraints hypo.translationId = none →
        EvaluateWhenApplied find infinity ff hypo accumulator
          = (.error { text := "Couldn't find reference ", id := hypo.translationId },
              accumulator))
    ∧ (ff.m_constraints chartHypo.translationId = none →
        EvaluateWhenAppliedChart find infinity ff chartHypo accumulator
          = (.error { text := "Couldn't find reference ", id := chartHypo.translationId },
              accumulator))
    ∧ EvaluateWhenApplied exampleFind ExampleFloat.infinity exampleDeseg
        { exampleDesegHypo with translationId := 7 } (ExampleFloat.finite 5)
        = (.error { text := "Couldn't find reference ", id := 7 }, ExampleFloat.finite 5)
    ∧ EvaluateWhenAppliedChart exampleFind ExampleFloat.infinity exampleDeseg
        { exampleDesegChartHypo with translationId := 7 } (ExampleFloat.finite 5)
        = (.error { text := "Couldn't find reference ", id := 7 }, ExampleFloat.finite 5) := by
  refine ⟨?_, ?_, ?_, ?_, ?_, rfl, rfl⟩
  · unfold GetConstraint
    cases hc : constraints (translationId h) <;> simp [hc]
  · intro e he
    unfold GetConstraint at he
    cases hc : constraints (translationId h) with
    | none =>
      simp only [hc, Except.error.injEq] at he
      subst he
      exact ⟨rfl, rfl⟩
    | some refs => simp [hc] at he
  · intro refs
    unfold GetConstraint
    cases hc : constraints (translationId h) <;> simp [hc]
  · intro hnone
    simp [EvaluateWhenApplied, GetConstraint, hnone]
  · intro hnone
    simp [EvaluateWhenAppliedChart, GetConstraint, hnone]

/-- C16 (scoring table).  With `found` meaning that some reference contains the output
phrase and `match` that the reference at which the search stops holds the output at
position 0 and has the size of the output, both overloads of `EvaluateWhenApplied` add to
the accumulator the score of one table, applied to (completed, found, match, negate, soft):
for a hypothesis covering the whole source `0` if (match and not negate) or (not match and
negate), else the penalty; for a partial hypothesis `0` if negate or found, else the
penalty, where the penalty is `-1` when soft is set and minus infinity otherwise.  The
score of the table is always one of `0`, `-1`, minus infinity. -/
theorem C16_scoring_table {S : Type} [Zero S] [One S] [Neg S] [Add S]
    (find : Phrase → Phrase → Int → Nat) (infinity : S) (ff : ConstrainedDecodingDeseg)
    (hypo : DesegHypothesis) (chartHypo : DesegChartHypothesis) (accumulator : S)
    (refs chartRefs : List Phrase)
    (href : ff.m_constraints hypo.translationId = some refs)
    (hchart : ff.m_constraints chartHypo.translationId = some chartRefs) :
    EvaluateWhenApplied find infinity ff hypo accumulator
      = (.ok hypo.outputPhrase,
          accumulator + tableScore infinity hypo.isSourceCompleted
            (isFound find hypo.outputPhrase ff.m_maxUnknowns refs)
            (isExactMatch find hypo.outputPhrase ff.m_maxUnknowns refs)
            ff.m_negate ff.m_soft)
    ∧ EvaluateWhenAppliedChart find infinity ff chartHypo accumulator
      = (.ok chartHypo.outputPhrase,
          accumulator + tableScore infinity (chartCompleted chartHypo)
            (isFound find chartHypo.outputPhrase ff.m_maxUnknowns chartRefs)
            (isExactMatch find chartHypo.outputPhrase ff.m_maxUnknowns chartRefs)
            ff.m_negate ff.m_soft)
    ∧ (isFound find hypo.outputPhrase ff.m_maxUnknowns refs = true
        ↔ ∃ ref ∈ refs, find ref hypo.outputPhrase ff.m_maxUnknowns ≠ NOT_FOUND)
    ∧ (∀ completed found isMatch negate soft : Bool,
        tableScore infinity completed found isMatch negate soft = 0
        ∨ tableScore infinity completed found isMatch negate soft = -1
        ∨ tableScore infinity completed found isMatch negate soft = -infinity) := by
  refine ⟨?_, ?_, ?_, ?_⟩
  · simp only [EvaluateWhenApplied, GetConstraint, href]
    rw [← searchLoop_isFound, ← searchLoop_isExactMatch, ← score_eq_tableScore]
  · simp only [EvaluateWhenAppliedChart, GetConstraint, hchart]
    rw [← searchLoop_isFound, ← searchLoop_isExactMatch, ← score_eq_tableScore]
    simp only [chartCompleted, decide_eq_true_eq]
  · simp [isFound, firstContaining, List.find?_isSome]
  · intro completed found isMatch negate soft
    unfold tableScore penalty
    cases completed <;> cases found <;> cases isMatch <;> cases negate <;> cases soft <;> simp

/-- Witness of C16: the example feature (hard constraint, not negated) with the references
`the cat sat` and `the cat`, and the output `the cat` of a hypothesis that covers the whole
source.  The search stops at `the cat sat`, which contains the output at position 0 and
has another size: both overloads add minus infinity. -/
theorem C16_scoring_table_witness :
    exampleDeseg.m_constraints exampleDesegHypo.translationId
      = some [[exampleWord "the", exampleWord "cat", exampleWord "sat"],
          [exampleWord "the", exampleWord "cat"]]
    ∧ exampleDeseg.m_constraints exampleDesegChartHypo.translationId
      = some [[exampleWord "the", exampleWord "cat", exampleWord "sat"],
          [exampleWord "the", exampleWord "cat"]]
    ∧ EvaluateWhenApplied exampleFind ExampleFloat.infinity exampleDeseg exampleDesegHypo
        (ExampleFloat.finite 5)
      = (.ok exampleDesegHypo.outputPhrase, ExampleFloat.minusInfinity)
    ∧ EvaluateWhenAppliedChart exampleFind ExampleFloat.infinity exampleDeseg
        exampleDesegChartHypo (ExampleFloat.finite 5)
      = (.ok exampleDesegChartHypo.outputPhrase, ExampleFloat.minusInfinity) := by
  have h := C16_scoring_table exampleFind ExampleFloat.infinity exampleDeseg exampleDesegHypo
    exampleDesegChartHypo (ExampleFloat.finite 5) _ _ rfl rfl
  refine ⟨rfl, rfl, ?_, ?_⟩
  · rw [h.1]
    exact congrArg (Prod.mk _) (by decide)
  · rw [h.2.1]
    exact congrArg (Prod.mk _) (by decide)

/-! ### Configuration section of the neural language model -/

theorem readConfigLine_cerr (extractInt : String → Int → Int) (indeterminate : Int)
    (st : ConfigState) (line : String) :
    readConfigLine extractInt indeterminate st line
      = { readConfigLine extractInt indeterminate { st with cerr := [] } line with
          cerr := st.cerr
            ++ (readConfigLine extractInt indeterminate { st with cerr := [] } line).cerr } := by
  obtain ⟨lm, cerr, exited⟩ := st
  simp only [readConfigLine]
  by_cases h0 : (extractToken line).1 = "ngram_size"
  · simp only [if_pos h0]
    simp
  simp only [if_neg h0]
  by_cases h1 : (extractToken line).1 = "vocab_size"
  · simp only [if_pos h1]
    simp
  simp only [if_neg h1]
  by_cases h2 : (extractToken line).1 = "input_vocab_size"
  · simp only [if_pos h2]
    simp
  simp only [if_neg h2]
  by_cases h3 : (extractToken line).1 = "output_vocab_size"
  · simp only [if_pos h3]
    simp
  simp only [if_neg h3]
  by_cases h4 : (extractToken line).1 = "input_embedding_dimension"
  · simp only [if_pos h4]
    simp
  simp only [if_neg h4]
  by_cases h5 : (extractToken line).1 = "num_hidden"
  · simp only [if_pos h5]
    simp
  simp only [if_neg h5]
  by_cases h6 : (extractToken line).1 = "output_embedding_dimension"
  · simp only [if_pos h6]
    simp
  simp only [if_neg h6]
  by_cases h7 : (extractToken line).1 = "activation_function"
  · simp only [if_pos h7]
    simp
  simp only [if_neg h7]
  by_cases hv : (extractToken line).1 = "version"
  · simp only [if_pos hv]
    by_cases hone : extractInt (extractToken line).2 indeterminate = 1
    · simp [hone]
    · simp [hone]
  simp only [if_neg hv]
  by_cases ha : (extractToken line).1 = "auxiliary_softmax"
  · simp only [if_pos ha]
    simp
  simp only [if_neg ha]
  simp

theorem readConfigLine_agree (extractInt : String → Int → Int) (indeterminate : Int)
    (st st2 : ConfigState) (line : String) (hlm : st.lm = st2.lm)
    (hex : st.exited = st2.exited) :
    (readConfigLine extractInt indeterminate st line).lm
        = (readConfigLine extractInt indeterminate st2 line).lm
    ∧ (readConfigLine extractInt indeterminate st line).exited
        = (readConfigLine extractInt indeterminate st2 line).exited
    ∧ ∃ added : List CerrLine,
        (readConfigLine extractInt indeterminate st line).cerr = st.cerr ++ added
        ∧ (readConfigLine extractInt indeterminate st2 line).cerr = st2.cerr ++ added := by
  have e : ({ st with cerr := [] } : ConfigState) = { st2 with cerr := [] } := by
    rw [hlm, hex]
  rw [readConfigLine_cerr extractInt indeterminate st line,
    readConfigLine_cerr extractInt indeterminate st2 line, e]
  exact ⟨rfl, rfl, _, rfl, rfl⟩

theorem readConfig_agree (extractInt : String → Int → Int) (indeterminate : Int)
    (lines : List String) (st st2 : ConfigState) (hlm : st.lm = st2.lm)
    (hex : st.exited = st2.exited) :
    (readConfig extractInt indeterminate lines st).1.lm
        = (readConfig extractInt indeterminate lines st2).1.lm
    ∧ (readConfig extractInt indeterminate lines st).1.exited
        = (readConfig extractInt indeterminate lines st2).1.exited
    ∧ (readConfig extractInt indeterminate lines st).2
        = (readConfig extractInt indeterminate lines st2).2
    ∧ ∃ added : List CerrLine,
        (readConfig extractInt indeterminate lines st).1.cerr = st.cerr ++ added
        ∧ (readConfig extractInt indeterminate lines st2).1.cerr = st2.cerr ++ added := by
  induction lines generalizing st st2 with
  | nil => exact ⟨hlm, hex, rfl, [], by simp [readConfig], by simp [readConfig]⟩
  | cons line rest ih =>
    by_cases hl : line = ""
    · simp only [readConfig, hl, if_true]
      exact ⟨hlm, hex, trivial, [], by simp, by simp⟩
    · obtain ⟨h1, h2, a1, h3, h4⟩ :=
        readConfigLine_agree extractInt indeterminate st st2 line hlm hex
      simp only [readConfig, hl, if_false]
      cases hx : (readConfigLine extractInt indeterminate st line).exited with
      | some code =>
        have hx2 : (readConfigLine extractInt indeterminate st2 line).exited = some code := by
          rw [← h2, hx]
        simp only [hx, hx2]
        exact ⟨h1, trivial, trivial, a1, h3, h4⟩
      | none =>
        have hx2 : (readConfigLine extractInt indeterminate st2 line).exited = none := by
          rw [← h2, hx]
        simp only [hx, hx2]
        obtain ⟨i1, i2, i3, a2, i4, i5⟩ := ih _ _ h1 h2
        refine ⟨i1, i2, i3, a1 ++ a2, ?_, ?_⟩
        · rw [i4, h3, List.append_assoc]
        · rw [i5, h4, List.append_assoc]

theorem readConfigLine_unrecognized (extractInt : String → Int → Int) (indeterminate : Int)
    (st : ConfigState) (line : String)
    (h : (extractToken line).1 ∉ recognizedTokens) :
    readConfigLine extractInt indeterminate st line
      = { st with cerr := st.cerr ++ [CerrLine.unrecognizedField (extractToken line).1] } := by
  simp only [recognizedTokens, List.mem_cons, List.mem_singleton, not_or, List.mem_nil_iff,
    or_false] at h
  obtain ⟨h1, h2, h3, h4, h5, h6, h7, h8, h9, h10⟩ := h
  simp only [readConfigLine, h1, h2, h3, h4, h5, h6, h7, h8, h9, h10, if_false]

theorem readConfig_skip (extractInt : String → Int → Int) (indeterminate : Int)
    (st : ConfigState) (line : String) (post : List String)
    (hline : line ≠ "") (htoken : (extractToken line).1 ∉ recognizedTokens)
    (hrun : st.exited = none) :
    readConfig extractInt indeterminate (line :: post) st
      = readConfig extractInt indeterminate post
          { st with cerr := st.cerr ++ [CerrLine.unrecognizedField (extractToken line).1] } := by
  simp only [readConfig, hline, if_false]
  rw [readConfigLine_unrecognized extractInt indeterminate st line htoken]
  simp only [hrun]

theorem readConfig_skip_inside (extractInt : String → Int → Int) (indeterminate : Int)
    (pre : List String) (st : ConfigState) (line : String) (post : List String)
    (hline : line ≠ "") (htoken : (extractToken line).1 ∉ recognizedTokens)
    (hrun : st.exited = none) :
    (readConfig extractInt indeterminate (pre ++ line :: post) st).1.lm
        = (readConfig extractInt indeterminate (pre ++ post) st).1.lm
    ∧ (readConfig extractInt indeterminate (pre ++ line :: post) st).1.exited
        = (readConfig extractInt indeterminate (pre ++ post) st).1.exited := by
  induction pre generalizing st with
  | nil =>
    simp only [List.nil_append]
    rw [readConfig_skip extractInt indeterminate st line post hline htoken hrun]
    obtain ⟨h1, h2, _, _⟩ := readConfig_agree extractInt indeterminate post
      { st with cerr := st.cerr ++ [CerrLine.unrecognizedField (extractToken line).1] } st
      rfl rfl
    exact ⟨h1, h2⟩
  | cons l rest ih =>
    by_cases hl : l = ""
    · simp [readConfig, hl]
    · simp only [List.cons_append, readConfig, hl, if_false]
      cases hx : (readConfigLine extractInt indeterminate st l).exited with
      | some code => simp
      | none =>
        simp only []
        exact ih _ hx

/-- C13 (unrecognized configuration token).  In `readConfig` a non-empty line whose token is
none of the known ones is not fatal: processing it appends the warning to `cerr`, calls no
`exit` and leaves every configuration member as it was; the loop then goes on with the
following lines, and at its end the members, the exit status and the lines left in the
file are those of a run without that line, `cerr` holding the same lines plus the warning.
The same holds for the members and the exit status when the line stands anywhere in the
section. -/
theorem C13_readConfig_unrecognized_token (extractInt : String → Int → Int)
    (indeterminate : Int) (st : ConfigState) (pre : List String) (line : String)
    (post : List String) (hline : line ≠ "")
    (htoken : (extractToken line).1 ∉ recognizedTokens) (hrun : st.exited = none) :
    readConfigLine extractInt indeterminate st line
      = { lm := st.lm
          cerr := st.cerr ++ [CerrLine.unrecognizedField (extractToken line).1]
          exited := none }
    ∧ (readConfig extractInt indeterminate (line :: post) st).1.lm
        = (readConfig extractInt indeterminate post st).1.lm
    ∧ (readConfig extractInt indeterminate (line :: post) st).1.exited
        = (readConfig extractInt indeterminate post st).1.exited
    ∧ (readConfig extractInt indeterminate (line :: post) st).2
        = (readConfig extractInt indeterminate post st).2
    ∧ (∃ added : List CerrLine,
        (readConfig extractInt indeterminate post st).1.cerr = st.cerr ++ added
        ∧ (readConfig extractInt indeterminate (line :: post) st).1.cerr
          = st.cerr ++ [CerrLine.unrecognizedField (extractToken line).1] ++ added)
    ∧ (readConfig extractInt indeterminate (pre ++ line :: post) st).1.lm
        = (readConfig extractInt indeterminate (pre ++ post) st).1.lm
    ∧ (readConfig extractInt indeterminate (pre ++ line :: post) st).1.exited
        = (readConfig extractInt indeterminate (pre ++ post) st).1.exited := by
  obtain ⟨h1, h2, h3, added, h4, h5⟩ := readConfig_agree extractInt indeterminate post
    { st with cerr := st.cerr ++ [CerrLine.unrecognizedField (extractToken line).1] } st
    rfl rfl
  have hin := readConfig_skip_inside extractInt indeterminate pre st line post hline htoken hrun
  rw [readConfig_skip extractInt indeterminate st line post hline htoken hrun]
  refine ⟨?_, h1, h2, h3, ⟨added, h5, h4⟩, hin.1, hin.2⟩
  rw [readConfigLine_unrecognized extractInt indeterminate st line htoken, ← hrun]

/-- Witness of C13: the line `colour blue` between `ngram_size 3` and `vocab_size 100`. -/
theorem C13_readConfig_unrecognized_token_witness :
    "colour blue" ≠ ""
    ∧ (extractToken "colour blue").1 ∉ recognizedTokens
    ∧ exampleConfigState.exited = none
    ∧ readConfigLine exampleExtractInt 0 exampleConfigState "colour blue"
      = { lm := exampleConfigState.lm
          cerr := [CerrLine.unrecognizedField "colour"]
          exited := none }
    ∧ (readConfig exampleExtractInt 0
        (["ngram_size 3"] ++ "colour blue" :: ["vocab_size 100", "", "num_hidden 7"])
        exampleConfigState).1.lm
      = (readConfig exampleExtractInt 0 (["ngram_size 3"] ++ ["vocab_size 100", "", "num_hidden 7"])
          exampleConfigState).1.lm
    ∧ (readConfig exampleExtractInt 0
        (["ngram_size 3"] ++ ["vocab_size 100", "", "num_hidden 7"]) exampleConfigState).1.lm
      = { ngram_size := 3, input_vocab_size := 100, output_vocab_size := 100
          input_embedding_dimension := 0, num_hidden := 0, output_embedding_dimension := 0
          activation := activation_function_type.InvalidFunction } := by
  have h := C13_readConfig_unrecognized_token exampleExtractInt 0 exampleConfigState
    ["ngram_size 3"] "colour blue" ["vocab_size 100", "", "num_hidden 7"] (by decide)
    (by decide) rfl
  exact ⟨by decide, by decide, rfl, h.1, h.2.2.2.2.2.1, by decide⟩

/-! ### Linear mode: context buffer, end of sentence, short phrases, attribution of words -/

theorem intOfSizeT_of_lt (n : Nat) (h : n < 2147483648) : intOfSizeT n = (n : Int) := by
  unfold intOfSizeT
  have hmod : n % 4294967296 = n := Nat.mod_eq_of_lt (by omega)
  rw [hmod, if_pos h]

theorem sizeTOfInt_natCast (n : Nat) (h : n < 2147483648) : sizeTOfInt (n : Int) = n := by
  unfold sizeTOfInt
  rw [Int.emod_eq_of_lt (by omega) (by omega)]
  simp

theorem recentIds_congr {St S : Type} (lm : LanguageModelKen St S) (h1 h2 : Hypothesis)
    (hw : h1.word = h2.word) (count size : Nat) :
    recentIds lm h1 count size = recentIds lm h2 count size := by
  induction count generalizing size with
  | zero => simp [recentIds]
  | succ count ih =>
    cases size with
    | zero => simp [recentIds]
    | succ size => simp only [recentIds, hw, ih]

theorem recentIds_stable {St S : Type} (lm : LanguageModelKen St S) (hypo : Hypothesis)
    (size count : Nat) (h : size + 1 ≤ count) :
    recentIds lm hypo count size = recentIds lm hypo (size + 1) size := by
  induction size generalizing count with
  | zero =>
    obtain ⟨c, rfl⟩ : ∃ c, count = c + 1 := ⟨count - 1, by omega⟩
    simp [recentIds]
  | succ size ih =>
    obtain ⟨c, rfl⟩ : ∃ c, count = c + 1 := ⟨count - 1, by omega⟩
    simp only [recentIds]
    rw [ih c (by omega)]

theorem recentIds_length {St S : Type} (lm : LanguageModelKen St S) (hypo : Hypothesis)
    (count size : Nat) : (recentIds lm hypo count size).length = min count (size + 1) := by
  induction count generalizing size with
  | zero => simp [recentIds]
  | succ count ih =>
    cases size with
    | zero => simp [recentIds]
    | succ size =>
      simp only [recentIds, List.length_cons, ih]
      omega

theorem LastIDsLoop_eq {St S : Type} (lm : LanguageModelKen St S) (hypo : Hypothesis)
    (slots size : Nat) (h : size ≤ 2147483648) :
    LastIDsLoop lm hypo slots ((size : Int) - 1)
      = some (if size ≤ slots then recentIds lm hypo (size + 1) size
          else recentIds lm hypo slots size) := by
  induction slots generalizing size with
  | zero =>
    cases size with
    | zero => simp [LastIDsLoop, recentIds]
    | succ size =>
      have hne : ¬ (((size + 1 : Nat) : Int) - 1 = -1) := by omega
      simp [LastIDsLoop, recentIds, hne]
  | succ slots ih =>
    cases size with
    | zero => simp [LastIDsLoop, recentIds]
    | succ size =>
      have hpos : ((size + 1 : Nat) : Int) - 1 = (size : Int) := by omega
      have hne : ¬ ((size : Int) = -1) := by omega
      have hmin : ¬ ((size : Int) = -2147483648) := by omega
      rw [hpos]
      simp only [LastIDsLoop, hne, hmin, if_false, ih size (by omega),
        sizeTOfInt_natCast size (by omega), Option.map_some']
      by_cases hs : size ≤ slots
      · have hs2 : size + 1 ≤ slots + 1 := by omega
        simp only [hs, hs2, if_true, recentIds]
      · have hs2 : ¬ size + 1 ≤ slots + 1 := by omega
        simp only [hs, hs2, if_false, recentIds]

theorem LastIDs_eq {St S : Type} (lm : LanguageModelKen St S) (hypo : Hypothesis)
    (hint : hypo.endPos < 2147483648) :
    LastIDs lm hypo
      = some (if hypo.endPos + 1 ≤ lm.m_ngram.Order - 1
          then recentIds lm hypo (hypo.endPos + 2) (hypo.endPos + 1)
          else recentIds lm hypo (lm.m_ngram.Order - 1) (hypo.endPos + 1)) := by
  have hpos : intOfSizeT hypo.endPos = ((hypo.endPos + 1 : Nat) : Int) - 1 := by
    rw [intOfSizeT_of_lt hypo.endPos hint]
    omega
  unfold LastIDs
  rw [hpos, LastIDsLoop_eq lm hypo (lm.m_ngram.Order - 1) (hypo.endPos + 1) (by omega)]

theorem indicesRange_eq {St S : Type} (lm : LanguageModelKen St S) (hypo : Hypothesis)
    (hint : hypo.endPos < 2147483648) (hne : hypo.endPos + 1 ≠ lm.m_ngram.Order - 1) :
    indicesRange lm hypo = some (lastWordsContext lm hypo) := by
  unfold indicesRange lastWordsContext
  rw [LastIDs_eq lm hypo hint]
  by_cases hle : hypo.endPos + 1 ≤ lm.m_ngram.Order - 1
  · have hst := recentIds_stable lm hypo (hypo.endPos + 1) (lm.m_ngram.Order - 1) (by omega)
    have hlen := recentIds_length lm hypo (lm.m_ngram.Order - 1) (hypo.endPos + 1)
    simp only [hle, if_true, ← hst]
    rw [if_pos (by omega)]
  · have hlen := recentIds_length lm hypo (lm.m_ngram.Order - 1) (hypo.endPos + 1)
    simp only [hle, if_false]
    rw [if_pos (by omega)]

theorem indicesRange_overrun {St S : Type} (lm : LanguageModelKen St S) (hypo : Hypothesis)
    (hint : hypo.endPos < 2147483648) (heq : hypo.endPos + 1 = lm.m_ngram.Order - 1) :
    indicesRange lm hypo = none := by
  unfold indicesRange
  rw [LastIDs_eq lm hypo hint]
  have hlen := recentIds_length lm hypo (hypo.endPos + 2) (hypo.endPos + 1)
  simp only [Nat.le_of_eq heq, if_true]
  rw [if_neg (by omega)]

/-- C14 at the failing input (context buffer).  For a target end position below `2 ^ 31`,
`LastIDs` writes `endPos + 2` identifiers when the target side so far has at most
`order - 1` words, and `order - 1` otherwise; for a target side of exactly `order - 1` words
that is `order` identifiers, one more than the `order - 1` slots of the buffer, and the
behaviour of `Evaluate`, which owns the buffer, is undefined.  In the example of order 3 the
hypothesis with the target side `the cat` makes `LastIDs` write the three identifiers
`4 3 1`, the last of them the sentence-begin marker, into a buffer of two slots. -/
theorem C14_LastIDs_writes_past_buffer :
    (∀ (St S : Type) (lm : LanguageModelKen St S) (hypo : Hypothesis),
      hypo.endPos < 2147483648 →
        ∃ written, LastIDs lm hypo = some written
          ∧ written.length
            = if hypo.endPos + 1 ≤ lm.m_ngram.Order - 1 then hypo.endPos + 2
              else lm.m_ngram.Order - 1)
    ∧ (∀ (St S : Type) (lm : LanguageModelKen St S) (hypo : Hypothesis),
        hypo.endPos < 2147483648 → hypo.endPos + 1 = lm.m_ngram.Order - 1 →
          ∃ written, LastIDs lm hypo = some written
            ∧ written.length = lm.m_ngram.Order
            ∧ written.getLast? = some lm.m_ngram.BeginSentence
            ∧ indicesRange lm hypo = none)
    ∧ exampleLM.m_ngram.Order - 1 = 2
    ∧ LastIDs exampleLM exampleShortHypo = some [4, 3, 1]
    ∧ (LastIDs exampleLM exampleShortHypo).map List.length = some 3
    ∧ Evaluate exampleLM exampleShortHypo [] [] { lm := 0, oov := 0 } = none := by
  refine ⟨?_, ?_, by decide, by decide, by decide, by decide⟩
  · intro St S lm hypo hint
    refine ⟨_, LastIDs_eq lm hypo hint, ?_⟩
    by_cases hle : hypo.endPos + 1 ≤ lm.m_ngram.Order - 1
    · simp only [hle, if_true, recentIds_length]
      omega
    · simp only [hle, if_false, recentIds_length]
      omega
  · intro St S lm hypo hint heq
    have hord := lm.m_ngram.Order_ge_two
    refine ⟨_, LastIDs_eq lm hypo hint, ?_, ?_, indicesRange_overrun lm hypo hint heq⟩
    · simp only [Nat.le_of_eq heq, if_true, recentIds_length]
      omega
    · simp only [Nat.le_of_eq heq, if_true]
      have hlast : ∀ size, (recentIds lm hypo (size + 1) size).getLast?
          = some lm.m_ngram.BeginSentence := by
        intro size
        induction size with
        | zero => simp [recentIds]
        | succ size ih =>
          simp only [recentIds]
          rw [List.getLast?_cons, ih]
          rfl
      exact hlast (hypo.endPos + 1)

theorem EvaluateLoop_chain {St S : Type} [Add S] (lm : LanguageModelKen St S)
    (hypo : Hypothesis) (n position : Nat) (v : EvalVars St S) :
    (EvaluateLoop lm hypo n position v).score
        = (scoreChain lm (if v.state0IsRet then v.ret else v.aux)
            (targetWords hypo position n)).1.foldl (fun total score => total + score) v.score
    ∧ (if (EvaluateLoop lm hypo n position v).state0IsRet
        then (EvaluateLoop lm hypo n position v).ret
        else (EvaluateLoop lm hypo n position v).aux)
        = (scoreChain lm (if v.state0IsRet then v.ret else v.aux)
            (targetWords hypo position n)).2 := by
  induction n generalizing position v with
  | zero => simp [EvaluateLoop, targetWords, scoreChain]
  | succ n ih =>
    by_cases hf : v.state0IsRet = true
    · simp only [EvaluateLoop, hf, if_true, targetWords, scoreChain, List.foldl_cons]
      have := ih (position + 1)
        { score := v.score
            + (lm.m_ngram.Score v.ret (TranslateID lm.m_lmIdLookup (hypo.word position))).1
          ret := v.ret
          aux := (lm.m_ngram.Score v.ret (TranslateID lm.m_lmIdLookup (hypo.word position))).2
          state0IsRet := false }
      simpa using this
    · simp only [EvaluateLoop, hf, if_false, targetWords, scoreChain, List.foldl_cons]
      have := ih (position + 1)
        { score := v.score
            + (lm.m_ngram.Score v.aux (TranslateID lm.m_lmIdLookup (hypo.word position))).1
          ret := (lm.m_ngram.Score v.aux (TranslateID lm.m_lmIdLookup (hypo.word position))).2
          aux := v.aux
          state0IsRet := true }
      simpa using this

theorem EvaluateRaw_short {St S : Type} [Add S] [Zero S] (lm : LanguageModelKen St S)
    (hypo : Hypothesis) (ps aux_state : St) (L : Nat)
    (hcompleted : hypo.isSourceCompleted = false) (hL1 : 1 ≤ L)
    (hL2 : L ≤ lm.m_ngram.Order - 1) (hrange : hypo.endPos + 1 = hypo.startPos + L) :
    EvaluateRaw lm hypo ps aux_state
      = some (sumScores (scoreChain lm ps (targetWords hypo hypo.startPos L)).1,
          (scoreChain lm ps (targetWords hypo hypo.startPos L)).2) := by
  obtain ⟨k, rfl⟩ : ∃ k, L = k + 1 := ⟨L - 1, by omega⟩
  have hord := lm.m_ngram.Order_ge_two
  have hadj : min (hypo.endPos + 1) (hypo.startPos + lm.m_ngram.Order - 1)
      = hypo.startPos + (k + 1) := by
    rw [hrange]
    omega
  have hn : hypo.startPos + (k + 1) - (hypo.startPos + 1) = k := by omega
  have hnot : ¬ hypo.startPos + (k + 1) < hypo.endPos + 1 := by omega
  obtain ⟨hs, hc⟩ := EvaluateLoop_chain lm hypo k (hypo.startPos + 1)
    { score := (lm.m_ngram.Score ps (TranslateID lm.m_lmIdLookup (hypo.word hypo.startPos))).1
      ret := (lm.m_ngram.Score ps (TranslateID lm.m_lmIdLookup (hypo.word hypo.startPos))).2
      aux := aux_state
      state0IsRet := true }
  simp only [if_true] at hs hc
  simp only [EvaluateRaw, hcompleted, hadj, hn, hnot, Bool.false_eq_true, if_false,
    targetWords, scoreChain, sumScores]
  rw [← hs, ← hc]
  split <;> simp_all

/-- C15 (short phrases).  For every hypothesis that does not complete the source and adds
`L` target words with `1 <= L <= order - 1`, `Evaluate` returns the model state obtained by
scoring the `L` words one after another starting from the previous state (the state after
the last word, whichever of the two buffers holds it), and adds to the accumulator the
transform of the sum of those `L` per-word scores. -/
theorem C15_Evaluate_short_phrase {St S : Type} [Zero S] [Add S] (lm : LanguageModelKen St S)
    (hypo : Hypothesis) (ps aux_state : St) (out : ScoreAccum S) (L : Nat)
    (hcompleted : hypo.isSourceCompleted = false) (hL1 : 1 ≤ L)
    (hL2 : L ≤ lm.m_ngram.Order - 1) (hlength : hypo.currTargetLength = L)
    (hrange : hypo.endPos + 1 = hypo.startPos + L) :
    Evaluate lm hypo ps aux_state out
      = some ((scoreChain lm ps (targetWords hypo hypo.startPos L)).2,
          PlusEqualsScore lm.OOVFeatureEnabled out
            (lm.TransformLMScore
              (sumScores (scoreChain lm ps (targetWords hypo hypo.startPos L)).1)))
    ∧ (PlusEqualsScore lm.OOVFeatureEnabled out
          (lm.TransformLMScore
            (sumScores (scoreChain lm ps (targetWords hypo hypo.startPos L)).1))).lm
      = out.lm + lm.TransformLMScore
          (sumScores (scoreChain lm ps (targetWords hypo hypo.startPos L)).1)
    ∧ (scoreChain lm ps (targetWords hypo hypo.startPos L)).1.length = L := by
  have hne : hypo.currTargetLength ≠ 0 := by omega
  have hraw := EvaluateRaw_short lm hypo ps aux_state L hcompleted hL1 hL2 hrange
  have hlen : ∀ (st : St) (ws : List Word), (scoreChain lm st ws).1.length = ws.length := by
    intro st ws
    induction ws generalizing st with
    | nil => rfl
    | cons w rest ih => simp [scoreChain, ih]
  have htw : ∀ (start n : Nat), (targetWords hypo start n).length = n := by
    intro start n
    induction n generalizing start with
    | zero => rfl
    | succ n ih => simp [targetWords, ih]
  refine ⟨?_, PlusEqualsScore_lm _ _ _, by rw [hlen, htw]⟩
  simp only [Evaluate, hne, if_false, hraw, Option.map_some']

/-- Witness of C15: the example hypothesis that adds `the cat` after the sentence start
under the order-3 model; the state after `cat` sits in the auxiliary buffer when the loop
ends. -/
theorem C15_Evaluate_short_phrase_witness :
    exampleTwoWordHypo.isSourceCompleted = false
    ∧ 1 ≤ 2 ∧ 2 ≤ exampleLM.m_ngram.Order - 1
    ∧ exampleTwoWordHypo.currTargetLength = 2
    ∧ exampleTwoWordHypo.endPos + 1 = exampleTwoWordHypo.startPos + 2
    ∧ Evaluate exampleLM exampleTwoWordHypo [1] [99] { lm := 0, oov := 0 }
        = some ([4, 3], { lm := 2 * (-14 + -25), oov := 0 }) := by
  have h := C15_Evaluate_short_phrase exampleLM exampleTwoWordHypo [1] [99]
    { lm := 0, oov := 0 } 2 rfl (by decide) (by decide) rfl rfl
  exact ⟨rfl, by decide, by decide, rfl, rfl, h.1.trans (by decide)⟩

theorem targetWords_length (hypo : Hypothesis) (start n : Nat) :
    (targetWords hypo start n).length = n := by
  induction n generalizing start with
  | zero => rfl
  | succ n ih => simp [targetWords, ih]

theorem targetWords_take (hypo : Hypothesis) (start n k : Nat) (h : k ≤ n) :
    (targetWords hypo start n).take k = targetWords hypo start k := by
  induction k generalizing start n with
  | zero => simp [targetWords]
  | succ k ih =>
    obtain ⟨n2, rfl⟩ : ∃ n2, n = n2 + 1 := ⟨n - 1, by omega⟩
    simp only [targetWords, List.take_succ_cons, ih (start + 1) n2 (by omega)]

theorem wordsScore_chain {St S : Type} [Zero S] [Add S] (lm : LanguageModelKen St S)
    (hypo : Hypothesis) (ps aux_state : St) (L : Nat)
    (hlength : hypo.currTargetLength = L) (hrange : hypo.endPos + 1 = hypo.startPos + L) :
    wordsScore lm hypo ps aux_state
      = sumScores (scoreChain lm ps
          ((targetWords hypo hypo.startPos L).take (min L (lm.m_ngram.Order - 1)))).1 := by
  have horder := lm.m_ngram.Order_ge_two
  cases L with
  | zero => simp [wordsScore, hlength, targetWords, scoreChain, sumScores]
  | succ k =>
    have hne : hypo.currTargetLength ≠ 0 := by omega
    obtain ⟨j, hj⟩ : ∃ j, min (k + 1) (lm.m_ngram.Order - 1) = j + 1 :=
      ⟨min (k + 1) (lm.m_ngram.Order - 1) - 1, by omega⟩
    have hadj : min (hypo.endPos + 1) (hypo.startPos + lm.m_ngram.Order - 1)
        - (hypo.startPos + 1) = j := by
      rw [hrange]
      omega
    obtain ⟨hs, _⟩ := EvaluateLoop_chain lm hypo j (hypo.startPos + 1)
      { score := (lm.m_ngram.Score ps (TranslateID lm.m_lmIdLookup (hypo.word hypo.startPos))).1
        ret := (lm.m_ngram.Score ps (TranslateID lm.m_lmIdLookup (hypo.word hypo.startPos))).2
        aux := aux_state
        state0IsRet := true }
    simp only [if_true] at hs
    rw [hj, targetWords_take hypo hypo.startPos (k + 1) (j + 1) (by omega)]
    simp only [wordsScore, hne, if_false, hadj, targetWords, scoreChain, sumScores]
    exact hs

theorem EvaluateLoop_congr {St S : Type} [Add S] (lm : LanguageModelKen St S)
    (h1 h2 : Hypothesis) (hw : h1.word = h2.word) (n position : Nat) (v : EvalVars St S) :
    EvaluateLoop lm h1 n position v = EvaluateLoop lm h2 n position v := by
  induction n generalizing position v with
  | zero => rfl
  | succ n ih => simp only [EvaluateLoop, hw, ih]

theorem EvaluateRaw_eq {St S : Type} [Zero S] [Add S] (lm : LanguageModelKen St S)
    (hypo : Hypothesis) (ps aux_state : St) (h : hypo.currTargetLength ≠ 0)
    (hint : hypo.endPos < 2147483648)
    (hbuffer : hypo.isSourceCompleted = true → hypo.endPos + 1 ≠ lm.m_ngram.Order - 1) :
    ∃ st, EvaluateRaw lm hypo ps aux_state
      = some (if hypo.isSourceCompleted then
            wordsScore lm hypo ps aux_state + endOfSentenceScore lm hypo
          else wordsScore lm hypo ps aux_state, st) := by
  have hord := lm.m_ngram.Order_ge_two
  by_cases hc : hypo.isSourceCompleted = true
  · simp only [EvaluateRaw, wordsScore, endOfSentenceScore, h, if_false, hc, if_true,
      indicesRange_eq lm hypo hint (hbuffer hc), Option.map_some']
    exact ⟨_, rfl⟩
  · by_cases hadj : min (hypo.endPos + 1) (hypo.startPos + lm.m_ngram.Order - 1)
        < hypo.endPos + 1
    · have hne : hypo.endPos + 1 ≠ lm.m_ngram.Order - 1 := by omega
      simp only [EvaluateRaw, wordsScore, h, if_false, hc, hadj, if_true,
        indicesRange_eq lm hypo hint hne, Option.map_some']
      exact ⟨_, rfl⟩
    · simp only [EvaluateRaw, wordsScore, h, if_false, hc, hadj]
      by_cases hs : (!(EvaluateLoop lm hypo
          (min (hypo.endPos + 1) (hypo.startPos + lm.m_ngram.Order - 1) - (hypo.startPos + 1))
          (hypo.startPos + 1)
          { score := (lm.m_ngram.Score ps
              (TranslateID lm.m_lmIdLookup (hypo.word hypo.startPos))).1
            ret := (lm.m_ngram.Score ps
              (TranslateID lm.m_lmIdLookup (hypo.word hypo.startPos))).2
            aux := aux_state
            state0IsRet := true }).state0IsRet) = true
      · rw [if_pos hs]
        exact ⟨_, rfl⟩
      · rw [if_neg hs]
        exact ⟨_, rfl⟩

/-- C5 as the code has it (end-of-sentence score).  For every hypothesis that adds at least
one target word, whose target end position is below `2 ^ 31` and whose target side, when it
completes the source, does not consist of exactly `order - 1` words, `Evaluate` returns and
adds to the accumulator the transform of the score of the added words plus, exactly when
`IsSourceCompleted` holds, one end-of-sentence score.  That score is the model's score of
`EndSentence` against the `order - 1` most recent entries of the target side built so far,
sentence-begin marker included, which is what `LastIDs` leaves in the buffer; the score of
the added words is the sum of the scores of the first `min(L, order - 1)` of them, chained
from the previous state; neither of the two summands depends on `IsSourceCompleted`. -/
theorem C5_Evaluate_end_of_sentence {St S : Type} [Zero S] [Add S] (lm : LanguageModelKen St S)
    (hypo : Hypothesis) (ps aux_state : St) (out : ScoreAccum S)
    (h : hypo.currTargetLength ≠ 0) (hint : hypo.endPos < 2147483648)
    (hbuffer : hypo.isSourceCompleted = true → hypo.endPos + 1 ≠ lm.m_ngram.Order - 1) :
    (∃ st, Evaluate lm hypo ps aux_state out
        = some (st, PlusEqualsScore lm.OOVFeatureEnabled out
            (lm.TransformLMScore
              (if hypo.isSourceCompleted then
                wordsScore lm hypo ps aux_state + endOfSentenceScore lm hypo
              else wordsScore lm hypo ps aux_state))))
    ∧ (∀ r, Evaluate lm hypo ps aux_state out = some r →
        r.2.lm = out.lm + lm.TransformLMScore
          (if hypo.isSourceCompleted then
            wordsScore lm hypo ps aux_state + endOfSentenceScore lm hypo
          else wordsScore lm hypo ps aux_state))
    ∧ endOfSentenceScore lm hypo
      = (lm.m_ngram.FullScoreForgotState
          (recentIds lm hypo (lm.m_ngram.Order - 1) (hypo.endPos + 1))
          lm.m_ngram.EndSentence).1
    ∧ (hypo.isSourceCompleted = true →
        indicesRange lm hypo
          = some (recentIds lm hypo (lm.m_ngram.Order - 1) (hypo.endPos + 1)))
    ∧ (∀ L, hypo.currTargetLength = L → hypo.endPos + 1 = hypo.startPos + L →
        wordsScore lm hypo ps aux_state
          = sumScores (scoreChain lm ps
              ((targetWords hypo hypo.startPos L).take (min L (lm.m_ngram.Order - 1)))).1)
    ∧ (∀ b : Bool,
        wordsScore lm { hypo with isSourceCompleted := b } ps aux_state
          = wordsScore lm hypo ps aux_state
        ∧ endOfSentenceScore lm { hypo with isSourceCompleted := b }
          = endOfSentenceScore lm hypo) := by
  obtain ⟨st, hraw⟩ := EvaluateRaw_eq lm hypo ps aux_state h hint hbuffer
  have heval : Evaluate lm hypo ps aux_state out
      = some (st, PlusEqualsScore lm.OOVFeatureEnabled out
          (lm.TransformLMScore
            (if hypo.isSourceCompleted then
              wordsScore lm hypo ps aux_state + endOfSentenceScore lm hypo
            else wordsScore lm hypo ps aux_state))) := by
    simp only [Evaluate, h, if_false, hraw, Option.map_some']
  refine ⟨⟨st, heval⟩, ?_, rfl, fun hc => indicesRange_eq lm hypo hint (hbuffer hc), ?_,
    fun b => ⟨?_, ?_⟩⟩
  · intro r hr
    rw [heval] at hr
    cases hr
    exact PlusEqualsScore_lm _ _ _
  · intro L hlength hrange
    exact wordsScore_chain lm hypo ps aux_state L hlength hrange
  · simp only [wordsScore]
    rw [EvaluateLoop_congr lm { hypo with isSourceCompleted := b } hypo rfl]
  · simp only [endOfSentenceScore, lastWordsContext]
    rw [recentIds_congr lm { hypo with isSourceCompleted := b } hypo rfl]

/-- Witness of C5: the example hypothesis that adds `sat` and completes the source gets
the transform of the word score `-26` plus the end-of-sentence score `-23`, the score of
`</s>` after the context `sat cat`. -/
theorem C5_Evaluate_end_of_sentence_witness :
    exampleLastHypo.currTargetLength ≠ 0
    ∧ exampleLastHypo.endPos < 2147483648
    ∧ (exampleLastHypo.isSourceCompleted = true
        → exampleLastHypo.endPos + 1 ≠ exampleLM.m_ngram.Order - 1)
    ∧ lastWordsContext exampleLM exampleLastHypo = [5, 4]
    ∧ indicesRange exampleLM exampleLastHypo = some [5, 4]
    ∧ (∃ st, Evaluate exampleLM exampleLastHypo [4, 3] [] { lm := -5, oov := 0 }
        = some (st, { lm := -5 + 2 * (-26 + -23), oov := 0 })) := by
  obtain ⟨st, hst⟩ := (C5_Evaluate_end_of_sentence exampleLM exampleLastHypo [4, 3] []
    { lm := -5, oov := 0 } (by decide) (by decide) (by decide)).1
  refine ⟨by decide, by decide, by decide, by decide, by decide, st, ?_⟩
  rw [hst]
  exact congrArg (fun acc => some (st, acc)) (by decide)

/-- Counterexample to C5 as stated: the example hypothesis with an empty target phrase
completes the source after `the cat sat`; the end-of-sentence score against the context
`sat cat` is `-23`, and `Evaluate` returns with the accumulator left at `-5` instead of
adding the transform of that score. -/
theorem C5_counterexample :
    exampleEmptyHypo.isSourceCompleted = true
    ∧ exampleEmptyHypo.endPos < 2147483648
    ∧ exampleEmptyHypo.endPos + 1 ≠ exampleLM.m_ngram.Order - 1
    ∧ lastWordsContext exampleLM exampleEmptyHypo = [5, 4]
    ∧ endOfSentenceScore exampleLM exampleEmptyHypo = -23
    ∧ wordsScore exampleLM exampleEmptyHypo [4, 3] [] = 0
    ∧ Evaluate exampleLM exampleEmptyHypo [4, 3] [] { lm := -5, oov := 0 }
        = some ([4, 3], { lm := -5, oov := 0 })
    ∧ ¬ ((Evaluate exampleLM exampleEmptyHypo [4, 3] [] { lm := -5, oov := 0 }).map
          (fun r => r.2.lm)
        = some (-5 + exampleLM.TransformLMScore
            (if exampleEmptyHypo.isSourceCompleted then
              wordsScore exampleLM exampleEmptyHypo [4, 3] []
                + endOfSentenceScore exampleLM exampleEmptyHypo
            else wordsScore exampleLM exampleEmptyHypo [4, 3] []))) := by
  decide

end Moses
